import Mathlib

/-!
Shallow embedding of the storage stack of the myOs teaching kernel
(src/kernel/{log.c, bio.c, fs.c, fs.h, sysfile.c}) together with proofs
about the redo log, the buffer cache, the block map, file read/write,
links, symlink resolution and path parsing.

Machine integers of the source (uint, int) are modelled as Nat, with an
explicit `% 2^32` wherever the C code relies on 32-bit wraparound.
Fatal conditions (panic) are modelled by Option-valued functions
returning none.
-/

set_option maxRecDepth 8192

namespace MyOs

/-! ## Constants

BSIZE, NDIRECT, NINDIRECT, NINDIRECTDOUBLE, MAXFILE, DIRSIZ, BPB come
from src/kernel/fs.h; NBUCKET from src/kernel/bio.c;
MAX_SYMLINK_DEPTH from src/kernel/sysfile.c. -/

def BSIZE : Nat := 1024

def NDIRECT : Nat := 11

def NINDIRECT : Nat := BSIZE / 4

def NINDIRECTDOUBLE : Nat := NINDIRECT * NINDIRECT

def MAXFILE : Nat := NDIRECT + NINDIRECT + NINDIRECTDOUBLE

def DIRSIZ : Nat := 14

def BPB : Nat := BSIZE * 8

def NBUCKET : Nat := 13

def MAX_SYMLINK_DEPTH : Nat := 10

/-- Modelled from the spec: param.h is not part of src/, so the log
capacity LOGSIZE = 30 is taken from the spec (section 6,
environment/config constants). -/
def LOGSIZE : Nat := 30

/-- Modelled from the spec: param.h is not part of src/, so the per-op
reservation MAXOPBLOCKS = 10 is taken from the spec (section 4.2). -/
def MAXOPBLOCKS : Nat := 10

/-! ## C1: the commit trace of the redo log (src/kernel/log.c)

commit() is a straight-line sequence of synchronous disk writes
(bwrite).  We embed each of write_log, write_head and install_trans as
the trace of writes it issues, and commit as their concatenation, and
prove the ordering property. -/

/-- One synchronous disk write (bwrite) issued by the log machinery.
log slot src: the copy of cache block src into log block start+1+slot
(write_log); header n bs: the header block at log.start carrying count
n and destination array bs (write_head); home b: the write of block b
to its home location (install_trans). -/
inductive DiskWrite where
  | log (slot : Nat) (src : Nat)
  | header (n : Nat) (bs : List Nat)
  | home (b : Nat)
deriving DecidableEq, Repr

/-- In-memory log header log.lh of src/kernel/log.c: the field n and
the first n entries of block[] are modelled as the list blocks, so
lh.n = blocks.length. -/
structure LogHeader where
  blocks : List Nat
deriving DecidableEq, Repr

/-- Trace of write_log (src/kernel/log.c:178): for tail in [0, n), the
cache block lh.block[tail] is copied into log block start+1+tail and
written there. -/
def write_logTrace (lh : LogHeader) : List DiskWrite :=
  lh.blocks.enum.map (fun p => DiskWrite.log p.1 p.2)

/-- Trace of write_head (src/kernel/log.c:102): one synchronous write
of the header block carrying lh.n and lh.block[0..n). -/
def write_headTrace (lh : LogHeader) : List DiskWrite :=
  [DiskWrite.header lh.blocks.length lh.blocks]

/-- Trace of install_trans (src/kernel/log.c:68): for tail in [0, n),
the logged payload is written to home location lh.block[tail]. -/
def install_transTrace (lh : LogHeader) : List DiskWrite :=
  lh.blocks.map DiskWrite.home

/-- Trace of commit (src/kernel/log.c:193): if lh.n > 0, write_log,
then write_head (the commit point), then install_trans, then
write_head again with n reset to 0. -/
def commitTrace (lh : LogHeader) : List DiskWrite :=
  if 0 < lh.blocks.length then
    write_logTrace lh ++ write_headTrace lh ++ install_transTrace lh
      ++ [DiskWrite.header 0 []]
  else []

/-! ## C3/C4: the log state machine (src/kernel/log.c)

struct log together with begin_op, log_write and end_op.  The header
is modelled as in C1 (lh.n = blocks.length); pins b counts the bpin
calls issued by log_write for block b (the buffer refcount increments
attributable to the log); ops holds one entry per outstanding FS
syscall, namely the number of further fresh blocks that syscall may
still register, initialised to MAXOPBLOCKS.  The budget list is the
spec discipline (section 4.2, reserved space per op = MAXOPBLOCKS);
the guards inside each transition are from the source. -/

structure LogSt where
  size : Nat
  committing : Bool
  blocks : List Nat
  pins : Nat → Nat
  ops : List Nat

/-- Initial log state after recovery (src/kernel/log.c initlog and
recover_from_log leave lh.n = 0, no outstanding ops). -/
def initLog (size : Nat) : LogSt :=
  { size := size, committing := false, blocks := [], pins := fun _ => 0,
    ops := [] }

/-- log_write (src/kernel/log.c:214): panic (none) if the transaction
is too big (lh.n >= LOGSIZE or lh.n >= log.size - 1) or no FS call is
outstanding; then scan block[0..n) for b (log absorption); if absent,
append b, pin the buffer and increment n. -/
def log_write (s : LogSt) (b : Nat) : Option LogSt :=
  if LOGSIZE ≤ s.blocks.length ∨ s.size ≤ s.blocks.length + 1 then none
  else if s.ops.length < 1 then none
  else if b ∈ s.blocks then some s
  else some { s with blocks := s.blocks ++ [b],
                     pins := fun c => if c = b then s.pins b + 1 else s.pins c }

/-- Iterate log_write for the same block N times (N successive calls
within one transaction). -/
def log_writeN : Nat → LogSt → Nat → Option LogSt
  | 0, s, _ => some s
  | n + 1, s, b => (log_write s b).bind (fun s2 => log_writeN n s2 b)

/-- Commands of the log state machine: a syscall is admitted
(begin_op), the k-th outstanding syscall registers block b
(log_write), the k-th outstanding syscall ends (end_op, committing
when it is the last one). -/
inductive LogCmd where
  | beginOp : LogCmd
  | logWrite (k : Nat) (b : Nat) : LogCmd
  | endOp (k : Nat) : LogCmd
deriving DecidableEq, Repr

/-- One transition of the log state machine.  beginOp admits only
under the guard of begin_op (src/kernel/log.c:126): not committing and
lh.n + (outstanding+1)*MAXOPBLOCKS <= LOGSIZE; otherwise the caller
sleeps (the transition is not enabled).  logWrite k b runs log_write,
charging op k one unit of its reservation when the block is fresh.
endOp k removes op k; when it is the last one it commits
(src/kernel/log.c:146 and commit): every logged block is unpinned by
install_trans and lh.n is reset to 0. -/
def logStep (s : LogSt) : LogCmd → Option LogSt
  | LogCmd.beginOp =>
    if ¬ s.committing ∧
        s.blocks.length + (s.ops.length + 1) * MAXOPBLOCKS ≤ LOGSIZE then
      some { s with ops := s.ops ++ [MAXOPBLOCKS] }
    else none
  | LogCmd.logWrite k b =>
    if hk : k < s.ops.length then
      if b ∈ s.blocks then log_write s b
      else if 0 < s.ops.get ⟨k, hk⟩ then
        (log_write s b).map
          (fun s2 => { s2 with ops := s.ops.set k (s.ops.get ⟨k, hk⟩ - 1) })
      else none
    else none
  | LogCmd.endOp k =>
    if s.committing then none
    else if _hk : k < s.ops.length then
      let rest := s.ops.eraseIdx k
      if rest.length = 0 then
        some { s with ops := rest, blocks := [],
                      pins := fun c => if c ∈ s.blocks then s.pins c - 1
                                       else s.pins c }
      else some { s with ops := rest }
    else none

/-- Run a list of commands from a state; none as soon as a transition
is disabled or panics. -/
def execCmds (s : LogSt) : List LogCmd → Option LogSt
  | [] => some s
  | c :: cs => (logStep s c).bind (fun s2 => execCmds s2 cs)

/-- Reachability counterexample trace for C4: two syscalls are
admitted in turn and each registers its full reservation of
MAXOPBLOCKS = 10 distinct blocks. -/
def c4trace : List LogCmd :=
  [LogCmd.beginOp]
    ++ (List.range 10).map (fun i => LogCmd.logWrite 0 (100 + i))
    ++ [LogCmd.beginOp]
    ++ (List.range 10).map (fun i => LogCmd.logWrite 1 (200 + i))

/-! ## C5: the buffer cache (src/kernel/bio.c)

bget on the double-miss path: find_lru scans every bucket for the
refcnt == 0 buffer with the smallest lastuse, the victim is moved to
the target bucket and its fields are reset.  Buffers are identified by
an id (index into the static pool array bcache.buf); buckets i is the
singly-linked list of ids resident in hash bucket i, head first; pool
maps an id to the buffer fields. -/

/-- Fields of one struct buf relevant to eviction (src/kernel/bio.c):
device, block number, validity, reference count, last-use tick. -/
structure Buf where
  dev : Nat
  blockno : Nat
  valid : Bool
  refcnt : Nat
  lastuse : Nat
deriving DecidableEq, Repr

/-- The bucket-partitioned cache bcache of src/kernel/bio.c. -/
structure BCache where
  buckets : List (List Nat)
  pool : Nat → Buf

/-- Comparison step of find_lru: buffer b improves on the current
candidate when there is none yet or b has a strictly smaller lastuse
(src/kernel/bio.c:69). -/
def lruBetter (pool : Nat → Buf) (b : Nat) : Option Nat → Bool
  | none => true
  | some l => decide ((pool b).lastuse < (pool l).lastuse)

/-- Scanning loop of find_lru (src/kernel/bio.c:60) over the
concatenation of all bucket lists, carrying the best candidate. -/
def find_lruGo (pool : Nat → Buf) : List Nat → Option Nat → Option Nat
  | [], best => best
  | b :: rest, best =>
    if (pool b).refcnt = 0 ∧ lruBetter pool b best then
      find_lruGo pool rest (some b)
    else
      find_lruGo pool rest best

/-- find_lru (src/kernel/bio.c:60): scan every bucket, in bucket order
and list order, for the refcnt == 0 buffer with the smallest lastuse;
none when every buffer is referenced. -/
def find_lru (c : BCache) : Option Nat :=
  find_lruGo c.pool c.buckets.join none

/-- All resident buffer ids, in find_lru scan order. -/
def resident (c : BCache) : List Nat :=
  c.buckets.join

/-- Scan of one bucket for a (dev, blockno) hit, first match head
first (the for loops of bget, src/kernel/bio.c:136 and 154). -/
def bucketScan (c : BCache) (dev blockno idx : Nat) : Option Nat :=
  (c.buckets.getD idx []).find?
    (fun b => (c.pool b).dev == dev && (c.pool b).blockno == blockno)

/-- Cache resulting from the victim path of bget: victim v, found in
bucket orig, is moved to bucket blockno mod NBUCKET (when different)
and its fields are reset (src/kernel/bio.c:166 to 199). -/
def bgetVictimCache (c : BCache) (dev blockno v orig : Nat) : BCache :=
  { buckets :=
      (if orig = blockno % NBUCKET then c.buckets
       else
         (c.buckets.set orig ((c.buckets.getD orig []).erase v)).set
           (blockno % NBUCKET)
           (v :: (c.buckets.set orig
             ((c.buckets.getD orig []).erase v)).getD (blockno % NBUCKET) [])),
    pool := (fun i =>
      if i = v then
        { dev := dev, blockno := blockno, valid := false,
          refcnt := 1, lastuse := (c.pool v).lastuse }
      else c.pool i) }

/-- bget (src/kernel/bio.c:128).  In this sequential model the first
scan of the target bucket and the re-scan under all bucket locks
coincide, so a single scan decides hit or confirmed miss.  On a hit
the refcount is incremented and the buffer returned.  On a confirmed
miss, find_lru picks the victim (none = panic: no buffers),
find_bucket locates its current bucket (first bucket whose list
contains it), the victim is moved to bucket blockno mod NBUCKET if
needed, and its fields are reset to dev, blockno, valid = false,
refcnt = 1 before the sleep-lock is taken and the id returned.  The
lock acquisition and release order is not observable in the
sequential model. -/
def bget (c : BCache) (dev blockno : Nat) : Option (Nat × BCache) :=
  let idx := blockno % NBUCKET
  match bucketScan c dev blockno idx with
  | some b =>
    some (b, { c with pool := (fun i =>
        if i = b then
          { c.pool b with refcnt := (c.pool b).refcnt + 1 }
        else c.pool i) })
  | none =>
    match find_lru c with
    | none => none
    | some v =>
      match c.buckets.findIdx? (fun bkt => bkt.contains v) with
      | none => none
      | some orig => some (v, bgetVictimCache c dev blockno v orig)

/-- Concrete cache used by the bget witness: three buffers, the victim
(id 0, refcnt 0, oldest lastuse) sits in bucket 0 and must move to
bucket 1. -/
def bcacheWitness : BCache :=
  { buckets := [[0], [1, 2], [], [], [], [], [], [], [], [], [], [], []],
    pool := fun i =>
      if i = 0 then { dev := 1, blockno := 0, valid := true, refcnt := 0,
                      lastuse := 3 }
      else if i = 1 then { dev := 1, blockno := 14, valid := true,
                           refcnt := 2, lastuse := 1 }
      else { dev := 1, blockno := 27, valid := true, refcnt := 0,
             lastuse := 5 } }

/-! ## C2/C6/C9: the file-system block layer (src/kernel/fs.c)

balloc, bmap, readi and writei over one inode.  The state carries the
inode fields that these functions touch (size and addrs[13]), the word
contents of disk blocks (for indirect blocks; bread/brelse of the
buffer cache are transparent in this sequential model), the upcoming
results of the free-bitmap scan of balloc (an empty list is the
out-of-blocks case) and the sequence of blocks registered with
log_write.  Payload bytes are not modelled: the claims concern return
values, block mapping and logging, not data contents. -/

structure FsSt where
  size : Nat
  addrs : Nat → Nat
  disk : Nat → Nat → Nat
  alloc : List Nat
  logged : List Nat
  bmapstart : Nat
  inodeblock : Nat

/-- balloc (src/kernel/fs.c:69): hand out the next free block (0 and
no state change when the bitmap scan finds none).  A successful
allocation sets the bitmap bit and registers the bitmap block
BBLOCK(b) = b/BPB + sb.bmapstart with the log, then bzero
(src/kernel/fs.c:50) zeroes the new block and registers it too. -/
def balloc (st : FsSt) : Nat × FsSt :=
  match st.alloc with
  | [] => (0, st)
  | a :: rest =>
    (a, { st with alloc := rest,
                  disk := (fun b i => if b = a then 0 else st.disk b i),
                  logged := st.logged ++ [a / BPB + st.bmapstart, a] })

/-- Store a into inode slot addrs[k] (no log_write here; the inode is
written back by the caller through iupdate). -/
def setAddr (st : FsSt) (k a : Nat) : FsSt :=
  { st with addrs := (fun i => if i = k then a else st.addrs i) }

/-- Store a into word idx of disk block b and register b with
log_write, as bmap does after filling a pointer slot of an indirect
block. -/
def setDiskLog (st : FsSt) (b idx a : Nat) : FsSt :=
  { st with disk := (fun b2 i => if b2 = b ∧ i = idx then a else st.disk b2 i),
            logged := st.logged ++ [b] }

/-- Shared step of bmap: take the pointer cur read from a slot; when
it is zero, balloc a block and store it through put; the pair holds
the resulting pointer (0 exactly when an allocation was needed and
failed) and the updated state. -/
def ensurePtr (st : FsSt) (cur : Nat) (put : FsSt → Nat → FsSt) :
    Nat × FsSt :=
  if cur = 0 then
    let q := balloc st
    if q.1 = 0 then (0, q.2) else (q.1, put q.2 q.1)
  else (cur, st)

/-- bmap (src/kernel/fs.c:423): physical block of logical block bn,
allocating on demand.  bn < NDIRECT: direct slot addrs[bn].
NDIRECT <= bn < NDIRECT+NINDIRECT: single indirect through
addrs[NDIRECT] at index bn-NDIRECT.  Then double indirect through
addrs[NDIRECT+1] with outer index (bn-NDIRECT-NINDIRECT)/NINDIRECT
and inner index (bn-NDIRECT-NINDIRECT)%NINDIRECT; a failed balloc for
the outer or inner indirect block returns 0 early; a failed balloc
for the data block returns 0.  bn beyond MAXFILE panics (none). -/
def bmap (st : FsSt) (bn : Nat) : Option (Nat × FsSt) :=
  if bn < NDIRECT then
    let p := ensurePtr st (st.addrs bn) (fun s a => setAddr s bn a)
    some (p.1, p.2)
  else if bn - NDIRECT < NINDIRECT then
    let bn1 := bn - NDIRECT
    let p := ensurePtr st (st.addrs NDIRECT) (fun s a => setAddr s NDIRECT a)
    if p.1 = 0 then some (0, p.2)
    else
      let p2 := ensurePtr p.2 (p.2.disk p.1 bn1)
        (fun s a => setDiskLog s p.1 bn1 a)
      some (p2.1, p2.2)
  else if bn - NDIRECT - NINDIRECT < NINDIRECTDOUBLE then
    let bn2 := bn - NDIRECT - NINDIRECT
    let i1 := bn2 / NINDIRECT
    let i2 := bn2 % NINDIRECT
    let p := ensurePtr st (st.addrs (NDIRECT + 1))
      (fun s a => setAddr s (NDIRECT + 1) a)
    if p.1 = 0 then some (0, p.2)
    else
      let p2 := ensurePtr p.2 (p.2.disk p.1 i1)
        (fun s a => setDiskLog s p.1 i1 a)
      if p2.1 = 0 then some (0, p2.2)
      else
        let p3 := ensurePtr p2.2 (p2.2.disk p2.1 i2)
          (fun s a => setDiskLog s p2.1 i2 a)
        some (p3.1, p3.2)
  else none

/-- The physical block currently mapped to logical block bn, read
without allocating: 0 stands for an absent mapping (a hole). -/
def blockAt (st : FsSt) (bn : Nat) : Nat :=
  if bn < NDIRECT then st.addrs bn
  else if bn - NDIRECT < NINDIRECT then
    if st.addrs NDIRECT = 0 then 0
    else st.disk (st.addrs NDIRECT) (bn - NDIRECT)
  else if bn - NDIRECT - NINDIRECT < NINDIRECTDOUBLE then
    if st.addrs (NDIRECT + 1) = 0 then 0
    else
      let inner := st.disk (st.addrs (NDIRECT + 1))
        ((bn - NDIRECT - NINDIRECT) / NINDIRECT)
      if inner = 0 then 0
      else st.disk inner ((bn - NDIRECT - NINDIRECT) % NINDIRECT)
  else 0

/-- Block numbers serving as metadata of the inode: the single
indirect block, the double-indirect outer block, and every inner
indirect block the outer one references. -/
def metaBlocks (st : FsSt) (b : Nat) : Prop :=
  b = st.addrs NDIRECT ∨ b = st.addrs (NDIRECT + 1) ∨
  (st.addrs (NDIRECT + 1) ≠ 0 ∧
    ∃ j, j < NINDIRECT ∧ st.disk (st.addrs (NDIRECT + 1)) j = b ∧ b ≠ 0)

/-- Soundness of the free list handed to balloc: blocks are nonzero,
pairwise distinct, and none of them is already in use as a metadata
block of the inode (the bitmap guarantees this in the source: a set
bit is never handed out again). -/
def AllocFresh (st : FsSt) : Prop :=
  st.alloc.Nodup ∧ ∀ a ∈ st.alloc, a ≠ 0 ∧ ¬ metaBlocks st a

/-- No file hole below the end of the file: every logical block below
ceil(size / BSIZE) is mapped. -/
def NoHoles (st : FsSt) : Prop :=
  ∀ k, k * BSIZE < st.size → blockAt st k ≠ 0

/-- Separation of the double-indirect tree: no inner pointer of the
outer indirect block points back at the outer block itself (true of
any honestly built disk; needed because bmap writes through these
pointers). -/
def MetaSep (st : FsSt) : Prop :=
  st.addrs (NDIRECT + 1) ≠ 0 →
    ∀ j, j < NINDIRECT →
      st.disk (st.addrs (NDIRECT + 1)) j ≠ st.addrs (NDIRECT + 1)

/-- Invariant carried through bmap and the writei loop. -/
def FsInv (st : FsSt) : Prop :=
  AllocFresh st ∧ MetaSep st

/-- Effect summary of one state transformation performed by bmap: the
inode size and block are untouched, the log only grows, and under the
invariant the invariant is preserved and every established block
mapping is preserved. -/
def FsStep (st st2 : FsSt) : Prop :=
  st2.size = st.size ∧ st2.inodeblock = st.inodeblock ∧
  (∃ l, st2.logged = st.logged ++ l) ∧
  (FsInv st → FsInv st2 ∧
    ∀ k, blockAt st k ≠ 0 → blockAt st2 k = blockAt st k)

/-- Outcome of a readi/writei call: the int return value, the final
state, and whether a copy fault (either_copyout or either_copyin
returning -1) was hit during the loop. -/
structure IoResult where
  ret : Int
  st : FsSt
  hitFault : Bool

/-- Loop of readi (src/kernel/fs.c:615): while tot < n, map the
current offset (bmap may allocate), stop early on a hole or
allocation failure (addr = 0), stop with tot = -1 on a copy fault
(either_copyout), else advance by m = min(n - tot, BSIZE - off %
BSIZE).  faults k tells whether the k-th copy attempt faults; fuel is
structural (one unit per iteration; the callers supply enough). -/
def readiGo (faults : Nat → Bool) :
    Nat → FsSt → Nat → Nat → Nat → Nat → Option IoResult
  | 0, _, _, _, _, _ => none
  | fuel + 1, st, tot, off, n, k =>
    if n ≤ tot then some ⟨(tot : Int), st, false⟩
    else
      match bmap st (off / BSIZE) with
      | none => none
      | some (addr, st1) =>
        if addr = 0 then some ⟨(tot : Int), st1, false⟩
        else
          let m := min (n - tot) (BSIZE - off % BSIZE)
          if faults k then some ⟨-1, st1, true⟩
          else readiGo faults fuel st1 (tot + m) (off + m) n (k + 1)

/-- readi (src/kernel/fs.c:604): return 0 when off > size or off + n
wraps around 32 bits; clamp n to size - off; run the copy loop. -/
def readi (st : FsSt) (faults : Nat → Bool) (off n : Nat) :
    Option IoResult :=
  if st.size < off ∨ (off + n) % 2 ^ 32 < off then some ⟨0, st, false⟩
  else
    let n2 := if st.size < off + n then st.size - off else n
    readiGo faults (n2 + 1) st 0 off n2 0

/-- Loop of writei (src/kernel/fs.c:663): like readi but the copied
block is registered with log_write after a successful copy, and a
copy fault (either_copyin) breaks out keeping tot (no -1).  Returns
(tot, state, fault flag). -/
def writeiGo (faults : Nat → Bool) :
    Nat → FsSt → Nat → Nat → Nat → Nat → Option (Nat × FsSt × Bool)
  | 0, _, _, _, _, _ => none
  | fuel + 1, st, tot, off, n, k =>
    if n ≤ tot then some (tot, st, false)
    else
      match bmap st (off / BSIZE) with
      | none => none
      | some (addr, st1) =>
        if addr = 0 then some (tot, st1, false)
        else if faults k then some (tot, st1, true)
        else
          let m := min (n - tot) (BSIZE - off % BSIZE)
          writeiGo faults fuel
            { st1 with logged := st1.logged ++ [addr] }
            (tot + m) (off + m) n (k + 1)

/-- writei (src/kernel/fs.c:649): -1 when off > size, when off + n
wraps around 32 bits, or when off + n exceeds MAXFILE*BSIZE; else run
the loop, extend size to the final offset off + tot when it grew, and
iupdate (log_write of the inode block) always. -/
def writei (st : FsSt) (faults : Nat → Bool) (off n : Nat) :
    Option IoResult :=
  if st.size < off ∨ (off + n) % 2 ^ 32 < off then some ⟨-1, st, false⟩
  else if MAXFILE * BSIZE < off + n then some ⟨-1, st, false⟩
  else
    (writeiGo faults (n + 1) st 0 off n 0).map (fun r =>
      ⟨(r.1 : Int),
        { r.2.1 with size := max r.2.1.size (off + r.1),
                     logged := r.2.1.logged ++ [st.inodeblock] },
        r.2.2⟩)

/-- Concrete FS state for the C2 counterexample and the C6/C9
witnesses: an empty one-block file about to grow. -/
def fsWitnessSt : FsSt :=
  { size := 0, addrs := (fun _ => 0), disk := (fun _ _ => 0),
    alloc := [500, 501, 502], logged := [], bmapstart := 45,
    inodeblock := 33 }

/-- Concrete FS state with mappings present in all three regions, used
by the bmap witness: direct slot 5 holds block 70, the single-indirect
block 80 maps index 100 to 81, the double-indirect tree 90 → 91 → 92
maps outer 1, inner 44. -/
def fsMapped : FsSt :=
  { size := 0,
    addrs := (fun i => if i = 5 then 70 else if i = 11 then 80
                       else if i = 12 then 90 else 0),
    disk := (fun b i => if b = 80 ∧ i = 100 then 81
                        else if b = 90 ∧ i = 1 then 91
                        else if b = 91 ∧ i = 44 then 92 else 0),
    alloc := [], logged := [], bmapstart := 45, inodeblock := 33 }

/-- Concrete FS state with an exhausted allocator. -/
def fsEmptyAlloc : FsSt :=
  { size := 0, addrs := (fun _ => 0), disk := (fun _ _ => 0),
    alloc := [], logged := [], bmapstart := 45, inodeblock := 33 }

/-- Concrete FS state for the readi fault witness: a 2048-byte file
with two mapped direct blocks. -/
def fsReadWitness : FsSt :=
  { size := 2048,
    addrs := (fun i => if i = 0 then 77 else if i = 1 then 78 else 0),
    disk := (fun _ _ => 0), alloc := [], logged := [], bmapstart := 45,
    inodeblock := 33 }

/-- Fault oracle that faults on every copy attempt. -/
def faultAlways : Nat → Bool := fun _ => true

/-- Fault oracle that never faults. -/
def faultNever : Nat → Bool := fun _ => false

/-- Result of the faulting readi call used by the C2 witness. -/
def readiFaultRes : IoResult :=
  (readi fsReadWitness faultAlways 0 5).getD ⟨0, fsReadWitness, false⟩

/-- Result of the faulting writei call used by the C2 counterexample
and witness. -/
def writeiFaultRes : IoResult :=
  (writei fsWitnessSt faultAlways 0 1).getD ⟨0, fsWitnessSt, false⟩

/-- Result of the fault-free two-block writei call used by the C9
witness. -/
def writeiOkRes : IoResult :=
  (writei fsWitnessSt faultNever 0 2048).getD ⟨0, fsWitnessSt, false⟩

/-- Concrete log state used by the absorption witness: one registered
block, one outstanding op with a full reservation. -/
def logWitnessSt : LogSt :=
  { size := 31, committing := false, blocks := [9], pins := fun _ => 0,
    ops := [10] }

/-! ## C7/C8/C10: names, directories, links, symlinks
(src/kernel/fs.c and src/kernel/sysfile.c)

Names are NUL-free byte lists; the end of the list stands for the
NUL terminator of the C string.  A name buffer filled by skipelem
with a component of DIRSIZ or more bytes holds exactly DIRSIZ bytes
and no terminator; this is the list of length DIRSIZ. -/

/-- Byte value of the path separator. -/
def SLASH : Nat := 47

/-- strncmp(s, t, n) == 0 on NUL-free byte lists (list end = the
terminator): compare at most n bytes, stopping at a difference or at
a terminator on both or either side. -/
def cstrEq : List Nat → List Nat → Nat → Bool
  | _, _, 0 => true
  | [], [], _ => true
  | [], _ :: _, _ => false
  | _ :: _, [], _ => false
  | x :: xs, y :: ys, n + 1 => x == y && cstrEq xs ys n

/-- namecmp (src/kernel/fs.c:701): strncmp up to DIRSIZ bytes; true
stands for namecmp returning 0 (names equal). -/
def namecmp (s t : List Nat) : Bool :=
  cstrEq s t DIRSIZ

/-- skipelem (src/kernel/fs.c:795): skip leading slashes; none when
the path is exhausted; otherwise copy the next element into name —
DIRSIZ bytes without a terminator when the element has DIRSIZ or more
bytes, the whole element otherwise — and return the remainder after
trailing slashes. -/
def skipelem (path : List Nat) : Option (List Nat × List Nat) :=
  let p1 := path.dropWhile (fun c => c == SLASH)
  if p1.isEmpty then none
  else
    let s := p1.takeWhile (fun c => c != SLASH)
    let rest := (p1.dropWhile (fun c => c != SLASH)).dropWhile
      (fun c => c == SLASH)
    some (rest, if DIRSIZ ≤ s.length then s.take DIRSIZ else s)

/-- One struct dirent: inum (0 = free slot) and the stored name (the
bytes before the first NUL of the 14-byte field). -/
structure Dirent where
  inum : Nat
  name : List Nat
deriving DecidableEq, Repr

/-- Scan loop of dirlookup carrying the entry index (the byte offset
divided by 16). -/
def dirlookupGo (name : List Nat) : List Dirent → Nat → Option (Nat × Dirent)
  | [], _ => none
  | e :: rest, i =>
    if e.inum != 0 && namecmp name e.name then some (i, e)
    else dirlookupGo name rest (i + 1)

/-- dirlookup (src/kernel/fs.c:715): linear scan of the directory
entries, skipping free slots, returning the first entry whose name
matches by namecmp, with its index. -/
def dirlookup (entries : List Dirent) (name : List Nat) :
    Option (Nat × Dirent) :=
  dirlookupGo name entries 0

/-- File types of stat.h (type 0 = free). -/
inductive Ty where
  | free
  | file
  | dir
  | device
  | symlink
deriving DecidableEq, Repr

/-- Directory-tree view used by namex: the entry list and
directory-type flag per inode number. -/
structure DirFs where
  dirs : Nat → List Dirent
  isDir : Nat → Bool

/-- namex (src/kernel/fs.c:828) in its namei use (nameiparent = 0):
peel one component with skipelem per iteration; a non-directory
intermediate fails; dirlookup walks to the next inode; an exhausted
path returns the current inode.  fuel bounds the number of
components (each iteration consumes at least one path byte, so
path.length + 1 always suffices). -/
def namex (fs : DirFs) : Nat → Nat → List Nat → Option Nat
  | 0, _, _ => none
  | fuel + 1, ip, path =>
    match skipelem path with
    | none => some ip
    | some (rest, nm) =>
      if fs.isDir ip then
        match dirlookup (fs.dirs ip) nm with
        | none => none
        | some (_, e) => namex fs fuel e.inum rest
      else none

/-- Insert a directory entry into the first free slot, or append at
the end (the dirent scan of dirlink, src/kernel/fs.c:765). -/
def insertFree : List Dirent → Dirent → List Dirent
  | [], e => [e]
  | d :: rest, e => if d.inum = 0 then e :: rest else d :: insertFree rest e

/-- dirlink (src/kernel/fs.c:751): refuse when the name is already
present; find the first free slot or append; write the entry with the
name strncpy-truncated to DIRSIZ bytes (the writei failure mode is
the diskFull oracle). -/
def dirlink (entries : List Dirent) (name : List Nat) (inum : Nat)
    (diskFull : Bool) : Option (List Dirent) :=
  if (dirlookup entries name).isSome then none
  else if diskFull then none
  else some (insertFree entries (Dirent.mk inum (name.take DIRSIZ)))

/-- World state consumed by sys_link: whether namei(old) succeeds and
the source inode it yields (type, device, inum, nlink — the in-memory
and on-disk nlink agree at every return because each change is
followed by iupdate); whether nameiparent(new) succeeds and the
parent it yields (device, entries); the final name component of new;
and the dirlink disk-full oracle. -/
structure LinkW where
  oldOk : Bool
  ity : Ty
  idev : Nat
  inum : Nat
  nlink : Nat
  parentOk : Bool
  pdev : Nat
  pentries : List Dirent
  name : List Nat
  diskFull : Bool

/-- sys_link (src/kernel/sysfile.c:132): resolve old (fail: -1);
refuse directories; nlink++ with iupdate; resolve the parent of new
(fail: roll the increment back); require the same device and dirlink
(fail: roll back); on success the new entry is in the parent. -/
def sys_link (w : LinkW) : Int × LinkW :=
  if ¬ w.oldOk then (-1, w)
  else if w.ity = Ty.dir then (-1, w)
  else
    let w1 := { w with nlink := w.nlink + 1 }
    if ¬ w.parentOk then (-1, { w1 with nlink := w1.nlink - 1 })
    else if w.pdev ≠ w.idev then (-1, { w1 with nlink := w1.nlink - 1 })
    else
      match dirlink w1.pentries w1.name w1.inum w1.diskFull with
      | none => (-1, { w1 with nlink := w1.nlink - 1 })
      | some es => (0, { w1 with pentries := es })

/-- Environment of resolve_symlink: inode types, the target read off
a symlink inode (none when readi returns no bytes), and namei
resolution of target paths (none = lookup failure). -/
structure SymEnv where
  typeOf : Nat → Ty
  readTarget : Nat → Option (List Nat)
  nameiF : List Nat → Option Nat

/-- One follow step of resolve_symlink: read the target path, resolve
it through namei. -/
def symStep (env : SymEnv) (ip : Nat) : Option Nat :=
  match env.readTarget ip with
  | none => none
  | some t => env.nameiF t

/-- Loop of resolve_symlink (src/kernel/sysfile.c:379), with
remaining = MAX_SYMLINK_DEPTH - depth: on a T_SYMLINK inode the
source first increments depth and fails beyond MAX_SYMLINK_DEPTH
(remaining = 0 here), then reads the target and resolves it; a
non-symlink inode is returned as is. -/
def resolveSymGo (env : SymEnv) : Nat → Nat → Option Nat
  | ip, 0 => if env.typeOf ip = Ty.symlink then none else some ip
  | ip, r + 1 =>
    if env.typeOf ip = Ty.symlink then
      match symStep env ip with
      | none => none
      | some nxt => resolveSymGo env nxt r
    else some ip

/-- resolve_symlink (src/kernel/sysfile.c:379). -/
def resolve_symlink (env : SymEnv) (ip : Nat) : Option Nat :=
  resolveSymGo env ip MAX_SYMLINK_DEPTH

/-- Symlink handling of sys_open (src/kernel/sysfile.c:479): when the
inode is T_SYMLINK and O_NOFOLLOW is absent, resolve the chain; none
makes sys_open return -1. -/
def sysOpenSymlink (env : SymEnv) (nofollow : Bool) (ip : Nat) :
    Option Nat :=
  if env.typeOf ip = Ty.symlink ∧ nofollow = false then
    resolve_symlink env ip
  else some ip

/-- Follow exactly k symlink steps from ip (each step requires a
T_SYMLINK inode whose target reads and resolves). -/
def chain (env : SymEnv) : Nat → Nat → Option Nat
  | ip, 0 => some ip
  | ip, k + 1 =>
    if env.typeOf ip = Ty.symlink then
      match symStep env ip with
      | none => none
      | some nxt => chain env nxt k
    else none

/-- The S5 scenario of the spec: inodes 1..11 are symlinks, each
pointing at the next; inode 12 is a regular file. -/
def env11 : SymEnv :=
  { typeOf := (fun i => if 1 ≤ i ∧ i ≤ 11 then Ty.symlink else Ty.file),
    readTarget := (fun i => some [i + 1]),
    nameiF := (fun p => p.head?) }

/-- Variant of env11 where the target of inode 5 fails to resolve. -/
def env12 : SymEnv :=
  { env11 with readTarget := (fun i => if i = 5 then none else some [i + 1]) }

/-- Concrete directory tree for the namex witness. -/
def dirFsW : DirFs :=
  { dirs := (fun _ => [Dirent.mk 3 [97, 98]]),
    isDir := (fun i => i == 1) }

/-- Concrete world for the sys_link witness: a regular file inode 7
with nlink 1, a healthy parent on the same device. -/
def linkW : LinkW :=
  { oldOk := true, ity := Ty.file, idev := 1, inum := 7, nlink := 1,
    parentOk := true, pdev := 1,
    pentries := [Dirent.mk 0 [], Dirent.mk 2 [120]],
    name := [97, 98, 99], diskFull := false }

/-- Directory-source variant of linkW. -/
def linkWDir : LinkW :=
  { linkW with ity := Ty.dir }

/-- Failing variant of linkW: the parent lives on another device. -/
def linkWBad : LinkW :=
  { linkW with pdev := 2 }

/-- Inductive invariant of the log state machine: the logged blocks
plus the remaining per-op reservations never exceed LOGSIZE, and no
reservation exceeds MAXOPBLOCKS. -/
def LogInv (s : LogSt) : Prop :=
  s.blocks.length + s.ops.sum ≤ LOGSIZE ∧ ∀ x ∈ s.ops, x ≤ MAXOPBLOCKS

end MyOs

namespace MyOs

/-- Helper: an element returned by an optional index lookup is a member
of the list. -/
theorem memOfGetElem {α : Type} {l : List α} {i : Nat} {x : α}
    (h : l[i]? = some x) : x ∈ l := by
  obtain ⟨hlt, he⟩ := List.getElem?_eq_some.mp h
  exact he ▸ List.getElem_mem hlt

/-- Helper: the write_log part of the trace contains no home-location
writes. -/
theorem write_logTrace_no_home (lh : LogHeader) :
    ∀ w ∈ write_logTrace lh, ∀ b, w ≠ DiskWrite.home b := by
  intro w hw b
  simp only [write_logTrace, List.mem_map] at hw
  obtain ⟨p, _, rfl⟩ := hw
  intro h
  cases h

/-- C1: for a transaction with at least one logged block, commit issues
exactly the following disk writes in order: the copy of every logged
block into the log region, then the header with n and block[] (the
commit point), then every home-location write, then the header with
n = 0.  Consequently a home location of a logged block is never
written before a header write carrying that block number: every home
write in the trace is preceded by a header write listing its block. -/
theorem commit_order (lh : LogHeader) (h : 1 ≤ lh.blocks.length) :
    commitTrace lh =
      write_logTrace lh ++ [DiskWrite.header lh.blocks.length lh.blocks]
        ++ lh.blocks.map DiskWrite.home ++ [DiskWrite.header 0 []] ∧
    ∀ (i b : Nat), (commitTrace lh)[i]? = some (DiskWrite.home b) →
      ∃ j : Nat, j < i ∧ ∃ m bs,
        (commitTrace lh)[j]? = some (DiskWrite.header m bs) ∧ b ∈ bs := by
  have hpos : 0 < lh.blocks.length := h
  have htr : commitTrace lh =
      write_logTrace lh ++ [DiskWrite.header lh.blocks.length lh.blocks]
        ++ lh.blocks.map DiskWrite.home ++ [DiskWrite.header 0 []] := by
    simp [commitTrace, if_pos hpos, write_headTrace, install_transTrace,
      List.append_assoc]
  refine ⟨htr, ?_⟩
  intro i b hib
  -- regroup the trace as A ++ header :: rest
  set A := write_logTrace lh with hA
  have htr2 : commitTrace lh =
      A ++ DiskWrite.header lh.blocks.length lh.blocks ::
        (lh.blocks.map DiskWrite.home ++ [DiskWrite.header 0 []]) := by
    rw [htr]; simp [List.append_assoc]
  -- i cannot lie inside A
  have hiA : ¬ i < A.length := by
    intro hlt
    have : (commitTrace lh)[i]? = A[i]? := by
      rw [htr2, List.getElem?_append_left hlt]
    rw [this] at hib
    have hmem : DiskWrite.home b ∈ A := memOfGetElem hib
    exact write_logTrace_no_home lh _ hmem b rfl
  push_neg at hiA
  -- i is not the header position either
  have hine : i ≠ A.length := by
    intro hEq
    have : (commitTrace lh)[i]? =
        some (DiskWrite.header lh.blocks.length lh.blocks) := by
      rw [htr2, hEq, List.getElem?_append_right (Nat.le_refl _)]
      simp
    rw [this] at hib
    cases hib
  have hgt : A.length < i := lt_of_le_of_ne hiA (fun hEq => hine hEq.symm)
  refine ⟨A.length, hgt, lh.blocks.length, lh.blocks, ?_, ?_⟩
  · rw [htr2, List.getElem?_append_right (Nat.le_refl _)]
    simp
  · -- the element at i is in the home part, hence b is a logged block
    have hrest : (commitTrace lh)[i]? =
        (DiskWrite.header lh.blocks.length lh.blocks ::
          (lh.blocks.map DiskWrite.home ++ [DiskWrite.header 0 []]))[
          (i - A.length)]? := by
      rw [htr2, List.getElem?_append_right (Nat.le_of_lt hgt)]
    rw [hrest] at hib
    obtain ⟨k, hk⟩ : ∃ k, i - A.length = k + 1 :=
      ⟨i - A.length - 1, by omega⟩
    rw [hk] at hib
    simp only [List.getElem?_cons_succ] at hib
    rcases lt_or_ge k (lh.blocks.map DiskWrite.home).length with hlt | hge
    · rw [List.getElem?_append_left hlt] at hib
      have : DiskWrite.home b ∈ lh.blocks.map DiskWrite.home :=
        memOfGetElem hib
      simp only [List.mem_map] at this
      obtain ⟨x, hx, hxe⟩ := this
      cases hxe
      exact hx
    · rw [List.getElem?_append_right hge] at hib
      rcases Nat.lt_or_ge (k - (lh.blocks.map DiskWrite.home).length) 1 with h1 | h1
      · have h0 : k - (lh.blocks.map DiskWrite.home).length = 0 := by omega
        rw [h0] at hib
        simp at hib
      · rw [List.getElem?_eq_none (by simpa using h1)] at hib
        cases hib

/-- Witness for commit_order at the concrete two-block transaction
with block list [7, 3]. -/
theorem commit_order_witness :
    1 ≤ (LogHeader.mk [7, 3]).blocks.length ∧
      (commitTrace (LogHeader.mk [7, 3]) =
        write_logTrace (LogHeader.mk [7, 3])
          ++ [DiskWrite.header (LogHeader.mk [7, 3]).blocks.length
                (LogHeader.mk [7, 3]).blocks]
          ++ (LogHeader.mk [7, 3]).blocks.map DiskWrite.home
          ++ [DiskWrite.header 0 []] ∧
      ∀ (i b : Nat),
        (commitTrace (LogHeader.mk [7, 3]))[i]? =
          some (DiskWrite.home b) →
        ∃ j : Nat, j < i ∧ ∃ m bs,
          (commitTrace (LogHeader.mk [7, 3]))[j]? =
            some (DiskWrite.header m bs) ∧ b ∈ bs) :=
  ⟨by decide, commit_order (LogHeader.mk [7, 3]) (by decide)⟩

/-- Helper: log_write on a state already containing b (and within the
size checks) is the identity. -/
theorem log_write_absorbed (s : LogSt) (b : Nat)
    (hcap : s.blocks.length < LOGSIZE) (hsz : s.blocks.length + 1 < s.size)
    (hout : 1 ≤ s.ops.length) (hb : b ∈ s.blocks) :
    log_write s b = some s := by
  simp only [log_write]
  rw [if_neg (by omega), if_neg (by omega), if_pos hb]

/-- Helper: iterating log_write on an absorbed block is the identity. -/
theorem log_writeN_absorbed (s : LogSt) (b : Nat)
    (hcap : s.blocks.length < LOGSIZE) (hsz : s.blocks.length + 1 < s.size)
    (hout : 1 ≤ s.ops.length) (hb : b ∈ s.blocks) :
    ∀ M, log_writeN M s b = some s := by
  intro M
  induction M with
  | zero => rfl
  | succ k ih =>
    simp only [log_writeN, log_write_absorbed s b hcap hsz hout hb,
      Option.bind_some]
    exact ih

/-- C3: log absorption idempotence.  For a block b not yet registered,
N >= 1 successive log_write calls for b in one open transaction leave
the log in the same state as a single call: b is appended once (so it
occurs exactly once in block[0..n)), n grows by exactly one, and the
buffer is pinned exactly once.  The size hypotheses keep every one of
the N calls below the too-big-a-transaction panic. -/
theorem log_write_absorption (s : LogSt) (b : Nat) (N : Nat)
    (hN : 1 ≤ N) (hb : b ∉ s.blocks)
    (hcap : s.blocks.length + 1 < LOGSIZE)
    (hsz : s.blocks.length + 2 < s.size)
    (hout : 1 ≤ s.ops.length) :
    log_writeN N s b = log_write s b ∧
    ∃ s2, log_write s b = some s2 ∧
      s2.blocks = s.blocks ++ [b] ∧
      s2.blocks.count b = 1 ∧
      s2.blocks.length = s.blocks.length + 1 ∧
      s2.pins b = s.pins b + 1 := by
  have hone : log_write s b =
      some { s with blocks := s.blocks ++ [b],
                    pins := fun c => if c = b then s.pins b + 1
                                     else s.pins c } := by
    simp only [log_write]
    rw [if_neg (by omega), if_neg (by omega), if_neg hb]
  set s2 : LogSt :=
    { s with blocks := s.blocks ++ [b],
             pins := fun c => if c = b then s.pins b + 1 else s.pins c }
    with hs2
  have hmem : b ∈ s2.blocks := by simp [hs2]
  have hlen2 : s2.blocks.length = s.blocks.length + 1 := by simp [hs2]
  have habs : ∀ M, log_writeN M s2 b = some s2 :=
    log_writeN_absorbed s2 b (by rw [hlen2]; omega)
      (by rw [hlen2]; simp only [hs2]; omega)
      (by simp only [hs2]; exact hout) hmem
  constructor
  · obtain ⟨K, rfl⟩ : ∃ K, N = K + 1 := ⟨N - 1, by omega⟩
    simp only [log_writeN, hone]
    have hbind : ((some s2).bind fun a => log_writeN K a b) =
        log_writeN K s2 b := rfl
    rw [hbind, habs K]
  · refine ⟨s2, hone, by simp [hs2], ?_, hlen2, by simp [hs2]⟩
    have hcnt : s.blocks.count b = 0 := List.count_eq_zero.mpr hb
    simp [hs2, List.count_append, hcnt]

/-- Helper: decrementing one positive entry of a Nat list decrements
its sum. -/
theorem sum_set_pred (l : List Nat) (k : Nat) (h : k < l.length)
    (h1 : 1 ≤ l.get ⟨k, h⟩) :
    (l.set k (l.get ⟨k, h⟩ - 1)).sum + 1 = l.sum := by
  induction l generalizing k with
  | nil => cases h
  | cons x xs ih =>
    cases k with
    | zero => simp at h1 ⊢; omega
    | succ j =>
      simp only [List.length_cons] at h
      have hj : j < xs.length := by omega
      simp only [List.set_cons_succ, List.sum_cons]
      have := ih j hj (by simpa using h1)
      simp only [List.get_cons_succ] at *
      omega

/-- Helper: removing an entry of a Nat list does not increase its sum. -/
theorem sum_eraseIdx_le (l : List Nat) (k : Nat) :
    (l.eraseIdx k).sum ≤ l.sum := by
  induction l generalizing k with
  | nil => simp [List.eraseIdx]
  | cons x xs ih =>
    cases k with
    | zero => simp [List.eraseIdx]
    | succ j =>
      simp only [List.eraseIdx, List.sum_cons]
      have := ih j
      omega

/-- Helper: a successful log_write leaves ops and size unchanged and
either absorbs the block (state unchanged) or appends it. -/
theorem log_write_cases (s : LogSt) (b : Nat) (s2 : LogSt)
    (h : log_write s b = some s2) :
    s2.ops = s.ops ∧ s2.size = s.size ∧
      ((b ∈ s.blocks ∧ s2 = s) ∨
        (b ∉ s.blocks ∧ s2.blocks = s.blocks ++ [b])) := by
  simp only [log_write] at h
  split at h
  · cases h
  · split at h
    · cases h
    · split at h
      · rename_i hb
        cases h
        exact ⟨rfl, rfl, Or.inl ⟨hb, rfl⟩⟩
      · rename_i hb
        cases h
        exact ⟨rfl, rfl, Or.inr ⟨hb, rfl⟩⟩

/-- Helper: every log transition preserves the reservation invariant. -/
theorem logStep_preserves_inv (s : LogSt) (c : LogCmd) (s2 : LogSt)
    (hInv : LogInv s) (hstep : logStep s c = some s2) : LogInv s2 := by
  obtain ⟨hsum, hbound⟩ := hInv
  cases c with
  | beginOp =>
    simp only [logStep] at hstep
    split at hstep
    · rename_i hg
      obtain ⟨hc, hcap⟩ := hg
      cases hstep
      constructor
      · have hle : s.ops.sum ≤ s.ops.length * MAXOPBLOCKS := by
          have h := List.sum_le_card_nsmul s.ops MAXOPBLOCKS hbound
          simpa [smul_eq_mul] using h
        simp only [List.sum_append, List.sum_cons, List.sum_nil]
        nlinarith
      · intro x hx
        rcases List.mem_append.mp hx with hx | hx
        · exact hbound x hx
        · simp at hx; omega
    · cases hstep
  | logWrite k b =>
    simp only [logStep] at hstep
    split at hstep
    · rename_i hk
      split at hstep
      · -- absorbed: logStep is log_write directly
        rename_i hb
        obtain ⟨hops, hsize, hcase⟩ := log_write_cases s b s2 hstep
        rcases hcase with ⟨_, rfl⟩ | ⟨hnb, _⟩
        · exact ⟨hsum, hbound⟩
        · exact absurd hb hnb
      · split at hstep
        · rename_i hb hpos
          cases hlw : log_write s b with
          | none => rw [hlw] at hstep; cases hstep
          | some s3 =>
            rw [hlw] at hstep
            obtain ⟨hops3, hsize3, hcase⟩ := log_write_cases s b s3 hlw
            simp only [Option.map_some'] at hstep
            cases hstep
            rcases hcase with ⟨hmem, _⟩ | ⟨_, hblocks⟩
            · exact absurd hmem hb
            · constructor
              · simp only [hblocks, List.length_append, List.length_cons,
                  List.length_nil]
                have := sum_set_pred s.ops k hk hpos
                omega
              · intro x hx
                rcases List.mem_or_eq_of_mem_set hx with hx | hx
                · exact hbound x hx
                · subst hx
                  exact le_trans (Nat.sub_le _ _) (hbound _ (s.ops.get_mem k hk))
        · cases hstep
    · cases hstep
  | endOp k =>
    simp only [logStep] at hstep
    split at hstep
    · cases hstep
    · split at hstep
      · rename_i hk
        have herase := sum_eraseIdx_le s.ops k
        have hsub : ∀ x ∈ s.ops.eraseIdx k, x ≤ MAXOPBLOCKS := fun x hx =>
          hbound x ((List.eraseIdx_sublist s.ops k).subset hx)
        split at hstep
        · rename_i hlen0
          cases hstep
          have hnil : s.ops.eraseIdx k = [] := List.length_eq_zero.mp hlen0
          constructor
          · simp [hnil, LOGSIZE]
          · intro x hx
            rw [hnil] at hx
            cases hx
        · cases hstep
          exact ⟨by simp only [] at *; omega, hsub⟩
      · cases hstep

/-- Helper: running any command list preserves the invariant. -/
theorem execCmds_preserves_inv (cmds : List LogCmd) :
    ∀ s s2 : LogSt, LogInv s → execCmds s cmds = some s2 → LogInv s2 := by
  induction cmds with
  | nil => intro s s2 h he; cases he; exact h
  | cons c cs ih =>
    intro s s2 h he
    simp only [execCmds] at he
    cases hs : logStep s c with
    | none => rw [hs] at he; cases he
    | some s1 =>
      rw [hs] at he
      exact ih s1 s2 (logStep_preserves_inv s c s1 h hs) he

/-- C4 counterexample: the claimed invariant lh.n + outstanding *
MAXOPBLOCKS <= LOGSIZE fails in a reachable state.  From the initial
state (log.size = 31), one syscall is admitted and registers 10
distinct blocks, then a second is admitted (10 + 2*10 <= 30 passes)
and registers 10 more: now lh.n = 20 and outstanding = 2, so lh.n +
outstanding * MAXOPBLOCKS = 40 > 30 = LOGSIZE. -/
theorem begin_op_reserve_cex :
    (execCmds (initLog 31) c4trace).isSome = true ∧
    LOGSIZE <
      (execCmds (initLog 31) c4trace).elim 0
        (fun s => s.blocks.length + s.ops.length * MAXOPBLOCKS) := by
  constructor
  · decide
  · decide

/-- C4 (amended): begin_op admits a caller exactly when no commit is
in progress and lh.n + (outstanding + 1) * MAXOPBLOCKS <= LOGSIZE,
sleeping otherwise, and admission only appends a fresh reservation;
the invariant that holds in every reachable state is lh.n plus the sum
of the REMAINING per-op reservations <= LOGSIZE (the claimed bound
lh.n + outstanding * MAXOPBLOCKS <= LOGSIZE fails once admitted ops
spend their reservations, see the counterexample). -/
theorem begin_op_admission_and_reserve :
    (∀ s : LogSt, (logStep s LogCmd.beginOp).isSome = true ↔
      (¬ s.committing ∧
        s.blocks.length + (s.ops.length + 1) * MAXOPBLOCKS ≤ LOGSIZE)) ∧
    (∀ s s2 : LogSt, logStep s LogCmd.beginOp = some s2 →
      s2 = { s with ops := s.ops ++ [MAXOPBLOCKS] }) ∧
    (∀ (size : Nat) (cmds : List LogCmd) (s : LogSt),
      execCmds (initLog size) cmds = some s →
      s.blocks.length + s.ops.sum ≤ LOGSIZE) := by
  refine ⟨?_, ?_, ?_⟩
  · intro s
    simp only [logStep]
    split
    · rename_i hg; simpa using hg
    · rename_i hg; simpa using hg
  · intro s s2 hstep
    simp only [logStep] at hstep
    split at hstep
    · cases hstep; rfl
    · cases hstep
  · intro size cmds s hexec
    have hInit : LogInv (initLog size) := by
      constructor
      · simp [initLog, LOGSIZE]
      · intro x hx; simp [initLog] at hx
    exact (execCmds_preserves_inv cmds _ s hInit hexec).1

/-- Witness for log_write_absorption: three successive log_write calls
for block 5 from a state with one registered block and one outstanding
op. -/
theorem log_write_absorption_witness :
    ((1 : Nat) ≤ 3 ∧ 5 ∉ logWitnessSt.blocks ∧
      logWitnessSt.blocks.length + 1 < LOGSIZE ∧
      logWitnessSt.blocks.length + 2 < logWitnessSt.size ∧
      1 ≤ logWitnessSt.ops.length) ∧
    (log_writeN 3 logWitnessSt 5 = log_write logWitnessSt 5 ∧
    ∃ s2, log_write logWitnessSt 5 = some s2 ∧
      s2.blocks = logWitnessSt.blocks ++ [5] ∧
      s2.blocks.count 5 = 1 ∧
      s2.blocks.length = logWitnessSt.blocks.length + 1 ∧
      s2.pins 5 = logWitnessSt.pins 5 + 1) :=
  ⟨⟨by decide, by decide, by decide, by decide, by decide⟩,
    log_write_absorption logWitnessSt 5 3 (by decide) (by decide)
      (by decide) (by decide) (by decide)⟩

/-- Helper: when every scanned buffer is referenced, the find_lru loop
started without a candidate reports none. -/
theorem find_lruGo_none (pool : Nat → Buf) (l : List Nat)
    (h : ∀ b ∈ l, (pool b).refcnt ≠ 0) :
    find_lruGo pool l none = none := by
  induction l with
  | nil => rfl
  | cons b rest ih =>
    simp only [find_lruGo]
    rw [if_neg]
    · exact ih (fun x hx => h x (List.mem_cons_of_mem _ hx))
    · intro hc
      exact h b (List.mem_cons_self _ _) hc.1

/-- Helper: the find_lru loop returns an unreferenced buffer among the
scanned ones or the running candidate, with lastuse no larger than any
scanned unreferenced buffer and no larger than the candidate. -/
theorem find_lruGo_spec (pool : Nat → Buf) :
    ∀ (l : List Nat) (best : Option Nat) (v : Nat),
      find_lruGo pool l best = some v →
      (∀ u, best = some u → (pool u).refcnt = 0) →
      (pool v).refcnt = 0 ∧
      (v ∈ l ∨ best = some v) ∧
      (∀ b ∈ l, (pool b).refcnt = 0 →
        (pool v).lastuse ≤ (pool b).lastuse) ∧
      (∀ u, best = some u → (pool v).lastuse ≤ (pool u).lastuse) := by
  intro l
  induction l with
  | nil =>
    intro best v h hbest
    cases best with
    | none => cases h
    | some u =>
      cases h
      exact ⟨hbest v rfl, Or.inr rfl, by simp, fun u2 h2 => by
        cases h2; exact le_refl _⟩
  | cons b rest ih =>
    intro best v h hbest
    simp only [find_lruGo] at h
    split at h
    · rename_i hc
      obtain ⟨hr0, hbet⟩ := hc
      have hb0 : ∀ u, some b = some u → (pool u).refcnt = 0 := by
        intro u hu; cases hu; exact hr0
      obtain ⟨h1, h2, h3, h4⟩ := ih (some b) v h hb0
      refine ⟨h1, ?_, ?_, ?_⟩
      · rcases h2 with h2 | h2
        · exact Or.inl (List.mem_cons_of_mem _ h2)
        · cases h2; exact Or.inl (List.mem_cons_self _ _)
      · intro x hx hx0
        rcases List.mem_cons.mp hx with rfl | hx
        · exact h4 x rfl
        · exact h3 x hx hx0
      · intro u hu
        have hvb := h4 b rfl
        cases best with
        | none => cases hu
        | some u0 =>
          cases hu
          have hlt : (pool b).lastuse < (pool u).lastuse := by
            simpa [lruBetter] using hbet
          omega
    · rename_i hc
      obtain ⟨h1, h2, h3, h4⟩ := ih best v h hbest
      refine ⟨h1, ?_, ?_, h4⟩
      · rcases h2 with h2 | h2
        · exact Or.inl (List.mem_cons_of_mem _ h2)
        · exact Or.inr h2
      · intro x hx hx0
        rcases List.mem_cons.mp hx with rfl | hx
        · -- x = b was skipped: either referenced (excluded) or not better
          have hnb : ¬ ((pool x).refcnt = 0 ∧ lruBetter pool x best = true) :=
            hc
          have hnbet : lruBetter pool x best = false := by
            cases hbet : lruBetter pool x best with
            | false => rfl
            | true => exact absurd ⟨hx0, hbet⟩ hnb
          cases best with
          | none => simp [lruBetter] at hnbet
          | some u =>
            have hub : (pool u).lastuse ≤ (pool x).lastuse := by
              have := hnbet
              simp only [lruBetter, decide_eq_false_iff_not, not_lt] at this
              exact this
            exact le_trans (h4 u rfl) hub
        · exact h3 x hx hx0

/-- Helper: a successful findIdx? returns an index whose element
satisfies the predicate. -/
theorem findIdxSome {α : Type} (l : List α) (p : α → Bool) (i : Nat)
    (h : l.findIdx? p = some i) : ∃ hi : i < l.length, p (l.get ⟨i, hi⟩) = true := by
  obtain ⟨hlt, heq⟩ := List.findIdx?_eq_some_iff_findIdx_eq.mp h
  refine ⟨hlt, ?_⟩
  subst heq
  simpa using List.findIdx_getElem

/-- C5: on a confirmed miss of bget (the target-bucket scan finds no
(dev, blockno) buffer; in the sequential model the re-scan under all
bucket locks coincides with it), if every resident buffer is
referenced the operation panics; otherwise the victim v returned by
find_lru has refcnt == 0 and minimal lastuse among all refcnt == 0
buffers across every bucket, bget succeeds returning v, v's fields are
reset to dev, blockno, valid = false, refcnt = 1, and v resides in
bucket blockno mod NBUCKET of the resulting cache. -/
theorem bget_miss_lru (c : BCache) (dev blockno : Nat)
    (hmiss : bucketScan c dev blockno (blockno % NBUCKET) = none)
    (hlen : c.buckets.length = NBUCKET) :
    ((∀ b ∈ resident c, (c.pool b).refcnt ≠ 0) →
      bget c dev blockno = none) ∧
    (∀ v, find_lru c = some v →
      v ∈ resident c ∧ (c.pool v).refcnt = 0 ∧
      (∀ b ∈ resident c, (c.pool b).refcnt = 0 →
        (c.pool v).lastuse ≤ (c.pool b).lastuse) ∧
      ∃ c2, bget c dev blockno = some (v, c2) ∧
        c2.pool v = { dev := dev, blockno := blockno, valid := false,
                      refcnt := 1, lastuse := (c.pool v).lastuse } ∧
        v ∈ c2.buckets.getD (blockno % NBUCKET) []) := by
  constructor
  · intro hall
    have hnone : find_lru c = none := find_lruGo_none c.pool c.buckets.join hall
    simp only [bget]
    rw [hmiss, hnone]
  · intro v hv
    obtain ⟨h0, hloc, hmin, _⟩ :=
      find_lruGo_spec c.pool c.buckets.join none v hv (by intro u hu; cases hu)
    have hvres : v ∈ resident c := by
      rcases hloc with h | h
      · exact h
      · cases h
    refine ⟨hvres, h0, hmin, ?_⟩
    -- find_bucket succeeds because v is resident
    have hfb : c.buckets.findIdx? (fun bkt => bkt.contains v) ≠ none := by
      intro hnone
      obtain ⟨bkt, hbkt, hvb⟩ := List.mem_join.mp hvres
      have := List.findIdx?_eq_none_iff.mp hnone bkt hbkt
      simp at this
      exact this hvb
    cases hfb2 : c.buckets.findIdx? (fun bkt => bkt.contains v) with
    | none => exact absurd hfb2 hfb
    | some orig =>
      obtain ⟨horiglt, horigp⟩ := findIdxSome _ _ _ hfb2
      have hidxlt : blockno % NBUCKET < c.buckets.length := by
        rw [hlen]
        exact Nat.mod_lt _ (by simp [NBUCKET])
      refine ⟨bgetVictimCache c dev blockno v orig, ?_, ?_, ?_⟩
      · simp only [bget, hmiss, hv, hfb2]
      · simp [bgetVictimCache]
      · -- v ends in the target bucket
        simp only [bgetVictimCache]
        by_cases horig : orig = blockno % NBUCKET
        · simp only [if_pos horig]
          have hvmem : v ∈ c.buckets.get ⟨orig, horiglt⟩ := by
            simpa using horigp
          have : c.buckets.getD (blockno % NBUCKET) [] =
              c.buckets.get ⟨orig, horiglt⟩ := by
            subst horig
            simp [List.getD, List.getElem?_eq_getElem horiglt]
          rw [this]
          exact hvmem
        · simp only [if_neg horig]
          have hb1len : (c.buckets.set orig
              ((c.buckets.getD orig []).erase v)).length = c.buckets.length := by
            simp
          have : ((c.buckets.set orig ((c.buckets.getD orig []).erase v)).set
                (blockno % NBUCKET)
                (v :: (c.buckets.set orig
                  ((c.buckets.getD orig []).erase v)).getD (blockno % NBUCKET) [])).getD
              (blockno % NBUCKET) [] =
              v :: (c.buckets.set orig
                ((c.buckets.getD orig []).erase v)).getD (blockno % NBUCKET) [] := by
            simp [List.getD, List.getElem?_set_self, hidxlt]
          rw [this]
          exact List.mem_cons_self _ _

/-- Helper: ensurePtr on a nonzero slot changes nothing. -/
theorem ensurePtr_hit (st : FsSt) (cur : Nat) (put : FsSt → Nat → FsSt)
    (h : cur ≠ 0) : ensurePtr st cur put = (cur, st) := by
  simp [ensurePtr, h]

/-- Helper: ensurePtr on a zero slot with an exhausted allocator fails
without state change. -/
theorem ensurePtr_fail (st : FsSt) (cur : Nat) (put : FsSt → Nat → FsSt)
    (hc : cur = 0) (ha : st.alloc = []) : ensurePtr st cur put = (0, st) := by
  simp [ensurePtr, hc, balloc, ha]

/-- Helper: when the free list carries no zero entries (balloc never
hands out block 0), a zero result of ensurePtr means the slot was
empty, the allocator was exhausted, and the state is unchanged. -/
theorem ensurePtr_zero (st : FsSt) (cur : Nat) (put : FsSt → Nat → FsSt)
    (hnz : ∀ a ∈ st.alloc, a ≠ 0)
    (h : (ensurePtr st cur put).1 = 0) :
    (ensurePtr st cur put).2 = st ∧ st.alloc = [] ∧ cur = 0 := by
  by_cases hc : cur = 0
  · cases hal : st.alloc with
    | nil => simp [ensurePtr, hc, balloc, hal]
    | cons a rest =>
      exfalso
      have ha : a ≠ 0 := hnz a (by rw [hal]; exact List.mem_cons_self _ _)
      simp [ensurePtr, hc, balloc, hal, ha] at h
  · rw [ensurePtr_hit st cur put hc] at h
    exact absurd h hc

/-- Helper: when put does not touch the allocator, the state left by
ensurePtr draws its allocator entries from the original one. -/
theorem ensurePtr_alloc_mem (st : FsSt) (cur : Nat) (put : FsSt → Nat → FsSt)
    (x : Nat) (hx : x ∈ (ensurePtr st cur put).2.alloc)
    (hput : ∀ s a, (put s a).alloc = s.alloc) : x ∈ st.alloc := by
  by_cases hc : cur = 0
  · cases hal : st.alloc with
    | nil => simp [ensurePtr, hc, balloc, hal] at hx
    | cons a rest =>
      by_cases ha : a = 0
      · simp [ensurePtr, hc, balloc, hal, ha] at hx
        exact List.mem_cons_of_mem _ hx
      · simp [ensurePtr, hc, balloc, hal, ha, hput] at hx
        exact List.mem_cons_of_mem _ hx
  · rw [ensurePtr_hit st cur put hc] at hx
    exact hx

/-- C6: the block-number geometry of bmap.  Direct slots serve
bn < NDIRECT; the single-indirect block addrs[NDIRECT] serves
NDIRECT <= bn < NDIRECT+NINDIRECT at index bn - NDIRECT; the
double-indirect tree rooted at addrs[NDIRECT+1] serves bn < MAXFILE
with outer index (bn-267)/256 and inner index (bn-267)%256; bn >=
MAXFILE = 65803 panics; and a zero result arises exactly from an
exhausted allocator (balloc returning 0): an empty free list on a
hole yields 0, and a zero result implies the free list was empty. -/
theorem bmap_mapping :
    (∀ (st : FsSt) (bn : Nat), bn < NDIRECT → st.addrs bn ≠ 0 →
      bmap st bn = some (st.addrs bn, st)) ∧
    (∀ (st : FsSt) (bn : Nat), NDIRECT ≤ bn → bn < NDIRECT + NINDIRECT →
      st.addrs NDIRECT ≠ 0 →
      st.disk (st.addrs NDIRECT) (bn - NDIRECT) ≠ 0 →
      bmap st bn = some (st.disk (st.addrs NDIRECT) (bn - NDIRECT), st)) ∧
    (∀ (st : FsSt) (bn : Nat), NDIRECT + NINDIRECT ≤ bn → bn < MAXFILE →
      st.addrs (NDIRECT + 1) ≠ 0 →
      st.disk (st.addrs (NDIRECT + 1))
        ((bn - NDIRECT - NINDIRECT) / NINDIRECT) ≠ 0 →
      st.disk (st.disk (st.addrs (NDIRECT + 1))
          ((bn - NDIRECT - NINDIRECT) / NINDIRECT))
        ((bn - NDIRECT - NINDIRECT) % NINDIRECT) ≠ 0 →
      bmap st bn = some (st.disk (st.disk (st.addrs (NDIRECT + 1))
          ((bn - NDIRECT - NINDIRECT) / NINDIRECT))
        ((bn - NDIRECT - NINDIRECT) % NINDIRECT), st)) ∧
    (∀ (st : FsSt) (bn : Nat), MAXFILE ≤ bn → bmap st bn = none) ∧
    (∀ (st : FsSt) (bn : Nat), bn < MAXFILE → st.alloc = [] →
      blockAt st bn = 0 → bmap st bn = some (0, st)) ∧
    (∀ (st : FsSt) (bn v : Nat) (st2 : FsSt),
      (∀ a ∈ st.alloc, a ≠ 0) → bmap st bn = some (v, st2) → v = 0 →
      st2.alloc = []) := by
  have hND : NDIRECT = 11 := rfl
  have hNI : NINDIRECT = 256 := rfl
  have hNID : NINDIRECTDOUBLE = 65536 := rfl
  have hMF : MAXFILE = 65803 := rfl
  refine ⟨?_, ?_, ?_, ?_, ?_, ?_⟩
  · intro st bn h1 h2
    simp [bmap, if_pos h1, ensurePtr_hit st (st.addrs bn) _ h2]
  · intro st bn h1 h2 h3 h4
    have h11 : ¬ bn < NDIRECT := by omega
    have hlt : bn - NDIRECT < NINDIRECT := by omega
    simp only [bmap, if_neg h11, if_pos hlt,
      ensurePtr_hit st (st.addrs NDIRECT) _ h3]
    simp [h3, ensurePtr_hit st (st.disk (st.addrs NDIRECT) (bn - NDIRECT)) _ h4]
  · intro st bn h1 h2 h3 h4 h5
    have h11 : ¬ bn < NDIRECT := by omega
    have hlt : ¬ bn - NDIRECT < NINDIRECT := by omega
    have hlt2 : bn - NDIRECT - NINDIRECT < NINDIRECTDOUBLE := by omega
    simp only [bmap, if_neg h11, if_neg hlt, if_pos hlt2,
      ensurePtr_hit st (st.addrs (NDIRECT + 1)) _ h3]
    simp [h3, ensurePtr_hit st _ _ h4, h4,
      ensurePtr_hit st _ _ h5]
  · intro st bn h1
    have h11 : ¬ bn < NDIRECT := by omega
    have hlt : ¬ bn - NDIRECT < NINDIRECT := by omega
    have hlt2 : ¬ bn - NDIRECT - NINDIRECT < NINDIRECTDOUBLE := by omega
    simp [bmap, if_neg h11, if_neg hlt, if_neg hlt2]
  · intro st bn h1 hal hhole
    by_cases h11 : bn < NDIRECT
    · have : st.addrs bn = 0 := by
        simpa [blockAt, if_pos h11] using hhole
      simp [bmap, if_pos h11, ensurePtr_fail st _ _ this hal]
    · by_cases hlt : bn - NDIRECT < NINDIRECT
      · by_cases hp : st.addrs NDIRECT = 0
        · simp [bmap, if_neg h11, if_pos hlt, ensurePtr_fail st _ _ hp hal]
        · have hslot : st.disk (st.addrs NDIRECT) (bn - NDIRECT) = 0 := by
            simpa [blockAt, if_neg h11, if_pos hlt, hp] using hhole
          simp [bmap, if_neg h11, if_pos hlt,
            ensurePtr_hit st (st.addrs NDIRECT) _ hp, hp,
            ensurePtr_fail st _ _ hslot hal]
      · have hlt2 : bn - NDIRECT - NINDIRECT < NINDIRECTDOUBLE := by omega
        by_cases hp : st.addrs (NDIRECT + 1) = 0
        · simp [bmap, if_neg h11, if_neg hlt, if_pos hlt2,
            ensurePtr_fail st _ _ hp hal]
        · by_cases hq : st.disk (st.addrs (NDIRECT + 1))
              ((bn - NDIRECT - NINDIRECT) / NINDIRECT) = 0
          · simp [bmap, if_neg h11, if_neg hlt, if_pos hlt2,
              ensurePtr_hit st (st.addrs (NDIRECT + 1)) _ hp, hp,
              ensurePtr_fail st _ _ hq hal]
          · have hr : st.disk (st.disk (st.addrs (NDIRECT + 1))
                ((bn - NDIRECT - NINDIRECT) / NINDIRECT))
                ((bn - NDIRECT - NINDIRECT) % NINDIRECT) = 0 := by
              simpa [blockAt, if_neg h11, if_neg hlt, if_pos hlt2, hp, hq]
                using hhole
            simp [bmap, if_neg h11, if_neg hlt, if_pos hlt2,
              ensurePtr_hit st (st.addrs (NDIRECT + 1)) _ hp, hp,
              ensurePtr_hit st _ _ hq, hq,
              ensurePtr_fail st _ _ hr hal]
  · intro st bn v st2 hnz h hv
    subst hv
    by_cases h11 : bn < NDIRECT
    · simp only [bmap, if_pos h11, Option.some_inj] at h
      have h1 : (ensurePtr st (st.addrs bn) (fun s a => setAddr s bn a)).1
          = 0 := by
        rw [show (0 : Nat) = (0, st2).1 from rfl, ← h]
      obtain ⟨he, hal, _⟩ := ensurePtr_zero st _ _ hnz h1
      have : st2 = (ensurePtr st (st.addrs bn) (fun s a => setAddr s bn a)).2 := by
        rw [show st2 = (0, st2).2 from rfl, ← h]
      rw [this, he, hal]
    · by_cases hlt : bn - NDIRECT < NINDIRECT
      · simp only [bmap, if_neg h11, if_pos hlt] at h
        by_cases hp : (ensurePtr st (st.addrs NDIRECT)
            (fun s a => setAddr s NDIRECT a)).1 = 0
        · rw [if_pos hp, Option.some_inj] at h
          obtain ⟨he, hal, _⟩ := ensurePtr_zero st _ _ hnz hp
          have : st2 = (ensurePtr st (st.addrs NDIRECT)
              (fun s a => setAddr s NDIRECT a)).2 := by
            rw [show st2 = (0, st2).2 from rfl, ← h]
          rw [this, he, hal]
        · rw [if_neg hp, Option.some_inj] at h
          have hnz2 : ∀ a ∈ (ensurePtr st (st.addrs NDIRECT)
              (fun s a => setAddr s NDIRECT a)).2.alloc, a ≠ 0 := by
            intro a ha
            exact hnz a (ensurePtr_alloc_mem st _ _ a ha (fun s a => rfl))
          have h1 : (ensurePtr (ensurePtr st (st.addrs NDIRECT)
              (fun s a => setAddr s NDIRECT a)).2
              ((ensurePtr st (st.addrs NDIRECT)
                (fun s a => setAddr s NDIRECT a)).2.disk
                (ensurePtr st (st.addrs NDIRECT)
                  (fun s a => setAddr s NDIRECT a)).1 (bn - NDIRECT))
              (fun s a => setDiskLog s (ensurePtr st (st.addrs NDIRECT)
                (fun s a => setAddr s NDIRECT a)).1 (bn - NDIRECT) a)).1
              = 0 := by
            rw [show (0 : Nat) = (0, st2).1 from rfl, ← h]
          obtain ⟨he, hal, _⟩ := ensurePtr_zero _ _ _ hnz2 h1
          have hst2 : st2 = (ensurePtr (ensurePtr st (st.addrs NDIRECT)
              (fun s a => setAddr s NDIRECT a)).2
              ((ensurePtr st (st.addrs NDIRECT)
                (fun s a => setAddr s NDIRECT a)).2.disk
                (ensurePtr st (st.addrs NDIRECT)
                  (fun s a => setAddr s NDIRECT a)).1 (bn - NDIRECT))
              (fun s a => setDiskLog s (ensurePtr st (st.addrs NDIRECT)
                (fun s a => setAddr s NDIRECT a)).1 (bn - NDIRECT) a)).2 := by
            rw [show st2 = (0, st2).2 from rfl, ← h]
          rw [hst2, he, hal]
      · have hlt2 : bn - NDIRECT - NINDIRECT < NINDIRECTDOUBLE := by
          by_contra hc
          simp [bmap, if_neg h11, if_neg hlt, if_neg hc] at h
        simp only [bmap, if_neg h11, if_neg hlt, if_pos hlt2] at h
        by_cases hp : (ensurePtr st (st.addrs (NDIRECT + 1))
            (fun s a => setAddr s (NDIRECT + 1) a)).1 = 0
        · rw [if_pos hp, Option.some_inj] at h
          obtain ⟨he, hal, _⟩ := ensurePtr_zero st _ _ hnz hp
          have : st2 = (ensurePtr st (st.addrs (NDIRECT + 1))
              (fun s a => setAddr s (NDIRECT + 1) a)).2 := by
            rw [show st2 = (0, st2).2 from rfl, ← h]
          rw [this, he, hal]
        · rw [if_neg hp] at h
          set stA := (ensurePtr st (st.addrs (NDIRECT + 1))
            (fun s a => setAddr s (NDIRECT + 1) a)).2 with hstA
          set ptrA := (ensurePtr st (st.addrs (NDIRECT + 1))
            (fun s a => setAddr s (NDIRECT + 1) a)).1 with hptrA
          have hnzA : ∀ a ∈ stA.alloc, a ≠ 0 := by
            intro a ha
            exact hnz a (ensurePtr_alloc_mem st _ _ a ha (fun s a => rfl))
          by_cases hq : (ensurePtr stA
              (stA.disk ptrA ((bn - NDIRECT - NINDIRECT) / NINDIRECT))
              (fun s a => setDiskLog s ptrA
                ((bn - NDIRECT - NINDIRECT) / NINDIRECT) a)).1 = 0
          · rw [if_pos hq, Option.some_inj] at h
            obtain ⟨he, hal, _⟩ := ensurePtr_zero stA _ _ hnzA hq
            have : st2 = (ensurePtr stA
                (stA.disk ptrA ((bn - NDIRECT - NINDIRECT) / NINDIRECT))
                (fun s a => setDiskLog s ptrA
                  ((bn - NDIRECT - NINDIRECT) / NINDIRECT) a)).2 := by
              rw [show st2 = (0, st2).2 from rfl, ← h]
            rw [this, he, hal]
          · rw [if_neg hq, Option.some_inj] at h
            set stB := (ensurePtr stA
              (stA.disk ptrA ((bn - NDIRECT - NINDIRECT) / NINDIRECT))
              (fun s a => setDiskLog s ptrA
                ((bn - NDIRECT - NINDIRECT) / NINDIRECT) a)).2 with hstB
            set ptrB := (ensurePtr stA
              (stA.disk ptrA ((bn - NDIRECT - NINDIRECT) / NINDIRECT))
              (fun s a => setDiskLog s ptrA
                ((bn - NDIRECT - NINDIRECT) / NINDIRECT) a)).1 with hptrB
            have hnzB : ∀ a ∈ stB.alloc, a ≠ 0 := by
              intro a ha
              exact hnzA a (ensurePtr_alloc_mem stA _ _ a ha (fun s a => rfl))
            have h1 : (ensurePtr stB
                (stB.disk ptrB ((bn - NDIRECT - NINDIRECT) % NINDIRECT))
                (fun s a => setDiskLog s ptrB
                  ((bn - NDIRECT - NINDIRECT) % NINDIRECT) a)).1 = 0 := by
              rw [show (0 : Nat) = (0, st2).1 from rfl, ← h]
            obtain ⟨he, hal, _⟩ := ensurePtr_zero stB _ _ hnzB h1
            have : st2 = (ensurePtr stB
                (stB.disk ptrB ((bn - NDIRECT - NINDIRECT) % NINDIRECT))
                (fun s a => setDiskLog s ptrB
                  ((bn - NDIRECT - NINDIRECT) % NINDIRECT) a)).2 := by
              rw [show st2 = (0, st2).2 from rfl, ← h]
            rw [this, he, hal]

/-- Witness for bmap_mapping: each conjunct instantiated at a concrete
state and block number (direct 5, single-indirect 111, double-indirect
567, out-of-range 70000, and the exhausted-allocator state at 0). -/
theorem bmap_mapping_witness :
    (bmap fsMapped 5 = some (fsMapped.addrs 5, fsMapped)) ∧
    (bmap fsMapped 111 =
      some (fsMapped.disk (fsMapped.addrs NDIRECT) (111 - NDIRECT),
        fsMapped)) ∧
    (bmap fsMapped 567 =
      some (fsMapped.disk (fsMapped.disk (fsMapped.addrs (NDIRECT + 1))
          ((567 - NDIRECT - NINDIRECT) / NINDIRECT))
        ((567 - NDIRECT - NINDIRECT) % NINDIRECT), fsMapped)) ∧
    (bmap fsMapped 70000 = none) ∧
    (bmap fsEmptyAlloc 0 = some (0, fsEmptyAlloc)) ∧
    (fsEmptyAlloc.alloc = []) :=
  ⟨bmap_mapping.1 fsMapped 5 (by decide) (by decide),
   bmap_mapping.2.1 fsMapped 111 (by decide) (by decide) (by decide)
     (by decide),
   bmap_mapping.2.2.1 fsMapped 567 (by decide) (by decide) (by decide)
     (by decide) (by decide),
   bmap_mapping.2.2.2.1 fsMapped 70000 (by decide),
   bmap_mapping.2.2.2.2.1 fsEmptyAlloc 0 (by decide) rfl (by decide),
   bmap_mapping.2.2.2.2.2 fsEmptyAlloc 0 0 fsEmptyAlloc (by decide)
     (by rfl) rfl⟩

/-- Helper: quotient bound for the double-indirect outer index. -/
theorem outerIdx_lt (x : Nat) (h : x < NINDIRECTDOUBLE) :
    x / NINDIRECT < NINDIRECT := by
  have h256 : NINDIRECT = 256 := rfl
  have h65536 : NINDIRECTDOUBLE = 65536 := rfl
  rw [h256]
  rw [h65536] at h
  omega

/-- Helper: balloc with an empty free list changes nothing. -/
theorem balloc_zero (st : FsSt) (hz : (balloc st).1 = 0)
    (hnz : ∀ a ∈ st.alloc, a ≠ 0) : (balloc st).2 = st := by
  cases hal : st.alloc with
  | nil => simp [balloc, hal]
  | cons a rest =>
    exfalso
    have := hnz a (by rw [hal]; exact List.mem_cons_self _ _)
    simp [balloc, hal] at hz
    exact this hz

/-- Helper: facts about a successful balloc under the invariant: the
block is not handed out again, was not a metadata block, comes back
zeroed, and nothing else changed. -/
theorem balloc_facts (st : FsSt) (hinv : FsInv st)
    (hne : (balloc st).1 ≠ 0) :
    (balloc st).1 ∉ (balloc st).2.alloc ∧ ¬ metaBlocks st (balloc st).1 ∧
    (∀ i, (balloc st).2.disk (balloc st).1 i = 0) ∧
    (balloc st).2.addrs = st.addrs ∧
    (∀ b i, b ≠ (balloc st).1 → (balloc st).2.disk b i = st.disk b i) ∧
    (balloc st).2.size = st.size ∧
    (balloc st).2.inodeblock = st.inodeblock ∧
    ∃ rest, st.alloc = (balloc st).1 :: rest ∧ (balloc st).2.alloc = rest := by
  obtain ⟨⟨hnd, hfr⟩, _⟩ := hinv
  cases hal : st.alloc with
  | nil => simp [balloc, hal] at hne
  | cons a rest =>
    rw [hal] at hnd hfr
    have hfa := hfr a (List.mem_cons_self _ _)
    have h1 : (balloc st).1 = a := by simp [balloc, hal]
    have h2 : (balloc st).2.alloc = rest := by simp [balloc, hal]
    refine ⟨?_, ?_, ?_, ?_, ?_, ?_, ?_, ?_⟩
    · rw [h1, h2]
      simpa using (List.nodup_cons.mp hnd).1
    · rw [h1]; exact hfa.2
    · intro i; simp [balloc, hal, h1]
    · simp [balloc, hal]
    · intro b i hb
      rw [h1] at hb
      simp [balloc, hal, hb]
    · simp [balloc, hal]
    · simp [balloc, hal]
    · exact ⟨rest, by rw [h1], h2⟩

/-- Helper: zeroing a fresh non-metadata block leaves every block
mapping unchanged. -/
theorem blockAt_zero_fresh (st st2 : FsSt) (a : Nat) (ha : a ≠ 0)
    (hm : ¬ metaBlocks st a) (haddr : st2.addrs = st.addrs)
    (hdisk : ∀ b i, b ≠ a → st2.disk b i = st.disk b i) :
    ∀ k, blockAt st2 k = blockAt st k := by
  intro k
  have hma : a ≠ st.addrs NDIRECT ∧ a ≠ st.addrs (NDIRECT + 1) := by
    constructor <;> (intro he; exact hm (by simp [metaBlocks, he]))
  by_cases hk1 : k < NDIRECT
  · simp [blockAt, hk1, haddr]
  · by_cases hk2 : k - NDIRECT < NINDIRECT
    · simp only [blockAt, if_neg hk1, if_pos hk2, haddr]
      by_cases hz : st.addrs NDIRECT = 0
      · simp [hz]
      · rw [if_neg hz, if_neg hz, hdisk _ _ (fun he => hma.1 he.symm)]
    · by_cases hk3 : k - NDIRECT - NINDIRECT < NINDIRECTDOUBLE
      · simp only [blockAt, if_neg hk1, if_neg hk2, if_pos hk3, haddr]
        by_cases hz : st.addrs (NDIRECT + 1) = 0
        · simp [hz]
        · rw [if_neg hz, if_neg hz]
          have houter : st.addrs (NDIRECT + 1) ≠ a := fun he => hma.2 he.symm
          rw [hdisk _ _ houter]
          by_cases hin : st.disk (st.addrs (NDIRECT + 1))
              ((k - NDIRECT - NINDIRECT) / NINDIRECT) = 0
          · simp [hin]
          · rw [if_neg hin, if_neg hin]
            have hinner : st.disk (st.addrs (NDIRECT + 1))
                ((k - NDIRECT - NINDIRECT) / NINDIRECT) ≠ a := by
              intro he
              exact hm (Or.inr (Or.inr ⟨hz,
                (k - NDIRECT - NINDIRECT) / NINDIRECT,
                outerIdx_lt _ hk3, he, ha⟩))
            rw [hdisk _ _ hinner]
      · simp [blockAt, if_neg hk1, if_neg hk2, if_neg hk3]

/-- Helper: writing a pointer into an empty inode slot preserves every
established block mapping. -/
theorem blockAt_setAddr (st : FsSt) (j a : Nat) (hz : st.addrs j = 0) :
    ∀ k, blockAt st k ≠ 0 → blockAt (setAddr st j a) k = blockAt st k := by
  intro k hk
  by_cases hk1 : k < NDIRECT
  · by_cases hkj : k = j
    · exfalso
      apply hk
      simp [blockAt, hk1, hkj ▸ hz]
    · simp [blockAt, hk1, setAddr, hkj]
  · by_cases hk2 : k - NDIRECT < NINDIRECT
    · by_cases hj : NDIRECT = j
      · exfalso
        apply hk
        simp [blockAt, if_neg hk1, hk2, hj ▸ hz]
      · simp [blockAt, if_neg hk1, hk2, setAddr, hj]
    · by_cases hk3 : k - NDIRECT - NINDIRECT < NINDIRECTDOUBLE
      · by_cases hj : NDIRECT + 1 = j
        · exfalso
          apply hk
          simp [blockAt, if_neg hk1, if_neg hk2, hk3, hj ▸ hz]
        · simp [blockAt, if_neg hk1, if_neg hk2, hk3, setAddr, hj]
      · simp [blockAt, if_neg hk1, if_neg hk2, if_neg hk3]

/-- Helper: filling an empty pointer slot of a disk block preserves
every established block mapping. -/
theorem blockAt_setDiskLog (st : FsSt) (b idx a : Nat)
    (hz : st.disk b idx = 0) :
    ∀ k, blockAt st k ≠ 0 →
      blockAt (setDiskLog st b idx a) k = blockAt st k := by
  intro k hk
  by_cases hk1 : k < NDIRECT
  · simp [blockAt, hk1, setDiskLog]
  · by_cases hk2 : k - NDIRECT < NINDIRECT
    · simp only [blockAt, if_neg hk1, if_pos hk2, setDiskLog] at hk ⊢
      by_cases hza : st.addrs NDIRECT = 0
      · simp [hza]
      · simp only [if_neg hza] at hk ⊢
        by_cases hc : st.addrs NDIRECT = b ∧ k - NDIRECT = idx
        · exact absurd (hc.1 ▸ hc.2 ▸ hz) hk
        · simp [hc]
    · by_cases hk3 : k - NDIRECT - NINDIRECT < NINDIRECTDOUBLE
      · simp only [blockAt, if_neg hk1, if_neg hk2, if_pos hk3,
          setDiskLog] at hk ⊢
        by_cases hza : st.addrs (NDIRECT + 1) = 0
        · simp [hza]
        · simp only [if_neg hza] at hk ⊢
          by_cases hc : st.addrs (NDIRECT + 1) = b ∧
              (k - NDIRECT - NINDIRECT) / NINDIRECT = idx
          · exfalso
            apply hk
            rw [if_pos (hc.1 ▸ hc.2 ▸ hz)]
          · simp only [if_neg hc] at hk ⊢
            by_cases hin : st.disk (st.addrs (NDIRECT + 1))
                ((k - NDIRECT - NINDIRECT) / NINDIRECT) = 0
            · simp [hin]
            · simp only [if_neg hin] at hk ⊢
              by_cases hc2 : st.disk (st.addrs (NDIRECT + 1))
                  ((k - NDIRECT - NINDIRECT) / NINDIRECT) = b ∧
                  (k - NDIRECT - NINDIRECT) % NINDIRECT = idx
              · exact absurd (hc2.1 ▸ hc2.2 ▸ hz) hk
              · simp [hc2]
      · simp [blockAt, if_neg hk1, if_neg hk2, if_neg hk3]

/-- Helper: fields of the state balloc never touches. -/
theorem balloc_unchanged (st : FsSt) :
    (balloc st).2.size = st.size ∧ (balloc st).2.inodeblock = st.inodeblock ∧
    (balloc st).2.addrs = st.addrs ∧
    ∃ l, (balloc st).2.logged = st.logged ++ l := by
  cases hal : st.alloc with
  | nil => exact ⟨by simp [balloc, hal], by simp [balloc, hal],
      by simp [balloc, hal], ⟨[], by simp [balloc, hal]⟩⟩
  | cons a rest => exact ⟨by simp [balloc, hal], by simp [balloc, hal],
      by simp [balloc, hal],
      ⟨[a / BPB + st.bmapstart, a], by simp [balloc, hal]⟩⟩

/-- Helper: balloc preserves the invariant. -/
theorem fsInv_balloc (st : FsSt) (hinv : FsInv st) : FsInv (balloc st).2 := by
  by_cases hq : (balloc st).1 = 0
  · rw [balloc_zero st hq (fun x hx => (hinv.1.2 x hx).1)]
    exact hinv
  · obtain ⟨ha1, hmeta, hz1, haddr, hdisk, _, _, rest, halc, halr⟩ :=
      balloc_facts st hinv hq
    obtain ⟨⟨hnd, hfr⟩, hsep⟩ := hinv
    have hma12 : (balloc st).1 ≠ st.addrs (NDIRECT + 1) := fun he =>
      hmeta (Or.inr (Or.inl he))
    have hne12 : st.addrs (NDIRECT + 1) ≠ (balloc st).1 := fun he =>
      hma12 he.symm
    constructor
    · constructor
      · rw [halr]
        rw [halc] at hnd
        exact (List.nodup_cons.mp hnd).2
      · intro x hx
        rw [halr] at hx
        have hx2 := hfr x (by rw [halc]; exact List.mem_cons_of_mem _ hx)
        refine ⟨hx2.1, ?_⟩
        intro hmx
        apply hx2.2
        rcases hmx with h | h | ⟨hz, j, hj, hdj, hxne⟩
        · exact Or.inl (by rwa [haddr] at h)
        · exact Or.inr (Or.inl (by rwa [haddr] at h))
        · rw [haddr] at hz hdj
          rw [hdisk (st.addrs (NDIRECT + 1)) j hne12] at hdj
          exact Or.inr (Or.inr ⟨hz, j, hj, hdj, hxne⟩)
    · intro hz j hj
      rw [haddr] at hz ⊢
      rw [hdisk (st.addrs (NDIRECT + 1)) j hne12]
      exact hsep hz j hj

/-- Helper: storing a fresh zeroed block into an inode slot preserves
the invariant. -/
theorem fsInv_setAddr (st : FsSt) (j a : Nat) (hinv : FsInv st)
    (ha : a ∉ st.alloc) (hzero : ∀ i, st.disk a i = 0) (hanz : a ≠ 0) :
    FsInv (setAddr st j a) := by
  obtain ⟨⟨hnd, hfr⟩, hsep⟩ := hinv
  constructor
  · refine ⟨hnd, ?_⟩
    intro x hx
    have hx2 := hfr x hx
    refine ⟨hx2.1, ?_⟩
    intro hmx
    rcases hmx with h | h | ⟨hz, j2, hj2, hdj, hxne⟩
    · simp only [setAddr] at h
      by_cases hj : NDIRECT = j
      · rw [if_pos hj] at h
        exact absurd (h ▸ hx) ha
      · rw [if_neg hj] at h
        exact hx2.2 (Or.inl h)
    · simp only [setAddr] at h
      by_cases hj : NDIRECT + 1 = j
      · rw [if_pos hj] at h
        exact absurd (h ▸ hx) ha
      · rw [if_neg hj] at h
        exact hx2.2 (Or.inr (Or.inl h))
    · simp only [setAddr] at hz hdj
      by_cases hj : NDIRECT + 1 = j
      · rw [if_pos hj] at hdj
        rw [hzero j2] at hdj
        exact hxne hdj.symm
      · rw [if_neg hj] at hz hdj
        exact hx2.2 (Or.inr (Or.inr ⟨hz, j2, hj2, hdj, hxne⟩))
  · intro hz j2 hj2
    simp only [setAddr] at hz ⊢
    by_cases hj : NDIRECT + 1 = j
    · simp only [if_pos hj] at hz ⊢
      rw [hzero j2]
      exact fun he => hanz he.symm
    · simp only [if_neg hj] at hz ⊢
      exact hsep hz j2 hj2

/-- Helper: filling a pointer slot of a disk block with a fresh block
preserves the invariant. -/
theorem fsInv_setDiskLog (st : FsSt) (b idx a : Nat) (hinv : FsInv st)
    (ha : a ∉ st.alloc) (hm12 : a ≠ st.addrs (NDIRECT + 1)) :
    FsInv (setDiskLog st b idx a) := by
  obtain ⟨⟨hnd, hfr⟩, hsep⟩ := hinv
  constructor
  · refine ⟨hnd, ?_⟩
    intro x hx
    have hx2 := hfr x hx
    refine ⟨hx2.1, ?_⟩
    intro hmx
    rcases hmx with h | h | ⟨hz, j2, hj2, hdj, hxne⟩
    · exact hx2.2 (Or.inl h)
    · exact hx2.2 (Or.inr (Or.inl h))
    · simp only [setDiskLog] at hz hdj
      by_cases hc : st.addrs (NDIRECT + 1) = b ∧ j2 = idx
      · rw [if_pos hc] at hdj
        exact absurd (hdj ▸ hx) ha
      · rw [if_neg hc] at hdj
        exact hx2.2 (Or.inr (Or.inr ⟨hz, j2, hj2, hdj, hxne⟩))
  · intro hz j2 hj2
    simp only [setDiskLog] at hz ⊢
    by_cases hc : st.addrs (NDIRECT + 1) = b ∧ j2 = idx
    · rw [if_pos hc]
      exact hm12
    · rw [if_neg hc]
      exact hsep hz j2 hj2

/-- Helper: FsStep is reflexive. -/
theorem fsStep_refl (st : FsSt) : FsStep st st :=
  ⟨rfl, rfl, ⟨[], by simp⟩, fun h => ⟨h, fun _ _ => rfl⟩⟩

/-- Helper: FsStep composes. -/
theorem fsStep_trans {a b c : FsSt} (h1 : FsStep a b) (h2 : FsStep b c) :
    FsStep a c := by
  obtain ⟨s1, i1, ⟨l1, hl1⟩, f1⟩ := h1
  obtain ⟨s2, i2, ⟨l2, hl2⟩, f2⟩ := h2
  refine ⟨s2.trans s1, i2.trans i1,
    ⟨l1 ++ l2, by rw [hl2, hl1, List.append_assoc]⟩, ?_⟩
  intro hinv
  obtain ⟨hinvb, hm1⟩ := f1 hinv
  obtain ⟨hinvc, hm2⟩ := f2 hinvb
  refine ⟨hinvc, fun k hk => ?_⟩
  have e1 := hm1 k hk
  have hk2 : blockAt b k ≠ 0 := by rw [e1]; exact hk
  rw [hm2 k hk2, e1]

/-- Helper: balloc is an FsStep. -/
theorem fsStep_balloc (st : FsSt) : FsStep st (balloc st).2 := by
  obtain ⟨hs, hi, haddr, hl⟩ := balloc_unchanged st
  refine ⟨hs, hi, hl, ?_⟩
  intro hinv
  refine ⟨fsInv_balloc st hinv, ?_⟩
  by_cases hq : (balloc st).1 = 0
  · have : (balloc st).2 = st :=
      balloc_zero st hq (fun x hx => (hinv.1.2 x hx).1)
    rw [this]
    exact fun _ _ => rfl
  · obtain ⟨_, hmeta, _, haddr2, hdisk, _, _, _⟩ := balloc_facts st hinv hq
    have heq := blockAt_zero_fresh st (balloc st).2 (balloc st).1 hq hmeta
      haddr2 hdisk
    exact fun k _ => heq k

/-- Helper: the ensurePtr step of bmap on an inode slot is an
FsStep. -/
theorem fsStep_ensure_addr (st : FsSt) (j : Nat) :
    FsStep st (ensurePtr st (st.addrs j) (fun s a => setAddr s j a)).2 := by
  by_cases hc : st.addrs j = 0
  · simp only [ensurePtr, if_pos hc]
    by_cases hq : (balloc st).1 = 0
    · simp only [hq, if_pos rfl]
      exact fsStep_balloc st
    · simp only [if_neg hq]
      obtain ⟨hs, hi, haddr, hl⟩ := balloc_unchanged st
      refine ⟨by simp [setAddr, hs], by simp [setAddr, hi], ?_, ?_⟩
      · obtain ⟨l, hl2⟩ := hl
        exact ⟨l, by simp [setAddr, hl2]⟩
      · intro hinv
        obtain ⟨ha1, hmeta, hz1, haddr2, hdisk, _, _, _⟩ :=
          balloc_facts st hinv hq
        have hinvb := fsInv_balloc st hinv
        have hzj : (balloc st).2.addrs j = 0 := by rw [haddr2]; exact hc
        refine ⟨fsInv_setAddr (balloc st).2 j (balloc st).1 hinvb ha1 hz1 hq,
          ?_⟩
        intro k hk
        have heq := blockAt_zero_fresh st (balloc st).2 (balloc st).1 hq
          hmeta haddr2 hdisk
        have hk2 : blockAt (balloc st).2 k ≠ 0 := by rw [heq k]; exact hk
        rw [blockAt_setAddr (balloc st).2 j (balloc st).1 hzj k hk2, heq k]
  · rw [ensurePtr_hit st _ _ hc]
    exact fsStep_refl st

/-- Helper: the ensurePtr step of bmap on an indirect-block slot is an
FsStep. -/
theorem fsStep_ensure_disk (st : FsSt) (b idx : Nat) :
    FsStep st (ensurePtr st (st.disk b idx)
      (fun s a => setDiskLog s b idx a)).2 := by
  by_cases hc : st.disk b idx = 0
  · simp only [ensurePtr, if_pos hc]
    by_cases hq : (balloc st).1 = 0
    · simp only [hq, if_pos rfl]
      exact fsStep_balloc st
    · simp only [if_neg hq]
      obtain ⟨hs, hi, haddr, hl⟩ := balloc_unchanged st
      refine ⟨by simp [setDiskLog, hs], by simp [setDiskLog, hi], ?_, ?_⟩
      · obtain ⟨l, hl2⟩ := hl
        exact ⟨l ++ [b], by simp [setDiskLog, hl2]⟩
      · intro hinv
        obtain ⟨ha1, hmeta, hz1, haddr2, hdisk, _, _, _⟩ :=
          balloc_facts st hinv hq
        have hinvb := fsInv_balloc st hinv
        have hzb : (balloc st).2.disk b idx = 0 := by
          by_cases hba : b = (balloc st).1
          · rw [hba]; exact hz1 idx
          · rw [hdisk b idx hba]; exact hc
        have hm12 : (balloc st).1 ≠ (balloc st).2.addrs (NDIRECT + 1) := by
          rw [haddr2]
          exact fun he => hmeta (Or.inr (Or.inl he))
        refine ⟨fsInv_setDiskLog (balloc st).2 b idx (balloc st).1 hinvb ha1
          hm12, ?_⟩
        intro k hk
        have heq := blockAt_zero_fresh st (balloc st).2 (balloc st).1 hq
          hmeta haddr2 hdisk
        have hk2 : blockAt (balloc st).2 k ≠ 0 := by rw [heq k]; exact hk
        rw [blockAt_setDiskLog (balloc st).2 b idx (balloc st).1 hzb k hk2,
          heq k]
  · rw [ensurePtr_hit st _ _ hc]
    exact fsStep_refl st

/-- Helper: after a successful addr-slot ensure, the slot holds the
returned pointer. -/
theorem ensure_addr_val (st : FsSt) (j : Nat)
    (hne : (ensurePtr st (st.addrs j) (fun s a => setAddr s j a)).1 ≠ 0) :
    (ensurePtr st (st.addrs j) (fun s a => setAddr s j a)).2.addrs j =
    (ensurePtr st (st.addrs j) (fun s a => setAddr s j a)).1 := by
  by_cases hc : st.addrs j = 0
  · simp only [ensurePtr, if_pos hc] at hne ⊢
    by_cases hq : (balloc st).1 = 0
    · simp [hq] at hne
    · simp [if_neg hq, setAddr]
  · rw [ensurePtr_hit st _ _ hc]

/-- Helper: after a successful disk-slot ensure, the slot holds the
returned pointer. -/
theorem ensure_disk_val (st : FsSt) (b idx : Nat)
    (hne : (ensurePtr st (st.disk b idx)
      (fun s a => setDiskLog s b idx a)).1 ≠ 0) :
    (ensurePtr st (st.disk b idx)
      (fun s a => setDiskLog s b idx a)).2.disk b idx =
    (ensurePtr st (st.disk b idx) (fun s a => setDiskLog s b idx a)).1 := by
  by_cases hc : st.disk b idx = 0
  · simp only [ensurePtr, if_pos hc] at hne ⊢
    by_cases hq : (balloc st).1 = 0
    · simp [hq] at hne
    · simp [if_neg hq, setDiskLog]
  · rw [ensurePtr_hit st _ _ hc]

/-- Helper: a disk-slot ensure never touches the inode slots. -/
theorem ensure_disk_addrs (st : FsSt) (b idx : Nat) :
    (ensurePtr st (st.disk b idx)
      (fun s a => setDiskLog s b idx a)).2.addrs = st.addrs := by
  by_cases hc : st.disk b idx = 0
  · simp only [ensurePtr, if_pos hc]
    by_cases hq : (balloc st).1 = 0
    · simp only [hq, if_pos rfl]
      exact (balloc_unchanged st).2.2.1
    · simp only [if_neg hq, setDiskLog]
      exact (balloc_unchanged st).2.2.1
  · rw [ensurePtr_hit st _ _ hc]

/-- Helper: a disk-slot ensure leaves any slot of a block that is
neither the written slot nor a handed-out block unchanged. -/
theorem ensure_disk_preserves (st : FsSt) (b idx b0 i0 : Nat)
    (h1 : ¬ (b0 = b ∧ i0 = idx)) (h2 : ∀ x ∈ st.alloc, x ≠ b0) :
    (ensurePtr st (st.disk b idx)
      (fun s a => setDiskLog s b idx a)).2.disk b0 i0 =
    st.disk b0 i0 := by
  by_cases hc : st.disk b idx = 0
  · simp only [ensurePtr, if_pos hc]
    by_cases hq : (balloc st).1 = 0
    · simp only [hq, if_pos rfl]
      cases hal : st.alloc with
      | nil => simp [balloc, hal]
      | cons a rest =>
        have hane : a ≠ b0 := h2 a (by rw [hal]; exact List.mem_cons_self _ _)
        have hb0a : ¬ b0 = a := fun he => hane he.symm
        simp [balloc, hal, hb0a]
    · simp only [if_neg hq, setDiskLog]
      cases hal : st.alloc with
      | nil => simp [balloc, hal] at hq
      | cons a rest =>
        have hane : a ≠ b0 := h2 a (by rw [hal]; exact List.mem_cons_self _ _)
        have hb0a : ¬ b0 = a := fun he => hane he.symm
        simp [balloc, hal, h1, hb0a]
  · rw [ensurePtr_hit st _ _ hc]

/-- Helper: provenance of a successful disk-slot ensure: the returned
pointer was the existing slot value or a freshly allocated block. -/
theorem ensure_disk_result (st : FsSt) (b idx : Nat)
    (hne : (ensurePtr st (st.disk b idx)
      (fun s a => setDiskLog s b idx a)).1 ≠ 0) :
    (ensurePtr st (st.disk b idx)
      (fun s a => setDiskLog s b idx a)).1 = st.disk b idx ∨
    (ensurePtr st (st.disk b idx)
      (fun s a => setDiskLog s b idx a)).1 ∈ st.alloc := by
  by_cases hc : st.disk b idx = 0
  · simp only [ensurePtr, if_pos hc] at hne ⊢
    by_cases hq : (balloc st).1 = 0
    · simp [hq] at hne
    · simp only [if_neg hq]
      right
      cases hal : st.alloc with
      | nil => simp [balloc, hal] at hq
      | cons a rest => simp [balloc, hal]
  · rw [ensurePtr_hit st _ _ hc]
    exact Or.inl rfl

/-- Helper: every successful bmap call is an FsStep. -/
theorem bmap_step (st : FsSt) (bn v : Nat) (st2 : FsSt)
    (h : bmap st bn = some (v, st2)) : FsStep st st2 := by
  by_cases h1 : bn < NDIRECT
  · simp only [bmap, if_pos h1, Option.some_inj] at h
    injection h with hv hst
    subst hst
    exact fsStep_ensure_addr st bn
  · by_cases h2 : bn - NDIRECT < NINDIRECT
    · simp only [bmap, if_neg h1, if_pos h2] at h
      by_cases hp : (ensurePtr st (st.addrs NDIRECT)
          (fun s a => setAddr s NDIRECT a)).1 = 0
      · rw [if_pos hp, Option.some_inj] at h
        injection h with hv hst
        subst hst
        exact fsStep_ensure_addr st NDIRECT
      · rw [if_neg hp, Option.some_inj] at h
        injection h with hv hst
        subst hst
        exact fsStep_trans (fsStep_ensure_addr st NDIRECT)
          (fsStep_ensure_disk _ _ _)
    · by_cases h3 : bn - NDIRECT - NINDIRECT < NINDIRECTDOUBLE
      · simp only [bmap, if_neg h1, if_neg h2, if_pos h3] at h
        by_cases hp : (ensurePtr st (st.addrs (NDIRECT + 1))
            (fun s a => setAddr s (NDIRECT + 1) a)).1 = 0
        · rw [if_pos hp, Option.some_inj] at h
          injection h with hv hst
          subst hst
          exact fsStep_ensure_addr st (NDIRECT + 1)
        · rw [if_neg hp] at h
          by_cases hq : (ensurePtr (ensurePtr st (st.addrs (NDIRECT + 1))
              (fun s a => setAddr s (NDIRECT + 1) a)).2
              ((ensurePtr st (st.addrs (NDIRECT + 1))
                (fun s a => setAddr s (NDIRECT + 1) a)).2.disk
                (ensurePtr st (st.addrs (NDIRECT + 1))
                  (fun s a => setAddr s (NDIRECT + 1) a)).1
                ((bn - NDIRECT - NINDIRECT) / NINDIRECT))
              (fun s a => setDiskLog s (ensurePtr st (st.addrs (NDIRECT + 1))
                (fun s a => setAddr s (NDIRECT + 1) a)).1
                ((bn - NDIRECT - NINDIRECT) / NINDIRECT) a)).1 = 0
          · rw [if_pos hq, Option.some_inj] at h
            injection h with hv hst
            subst hst
            exact fsStep_trans (fsStep_ensure_addr st (NDIRECT + 1))
              (fsStep_ensure_disk _ _ _)
          · rw [if_neg hq, Option.some_inj] at h
            injection h with hv hst
            subst hst
            exact fsStep_trans (fsStep_ensure_addr st (NDIRECT + 1))
              (fsStep_trans (fsStep_ensure_disk _ _ _)
                (fsStep_ensure_disk _ _ _))
      · simp [bmap, if_neg h1, if_neg h2, if_neg h3] at h

/-- Helper: bmap never panics below MAXFILE. -/
theorem bmap_isSome (st : FsSt) (bn : Nat) (h : bn < MAXFILE) :
    (bmap st bn).isSome = true := by
  have hMF : MAXFILE = 65803 := rfl
  by_cases h1 : bn < NDIRECT
  · simp [bmap, if_pos h1]
  · by_cases h2 : bn - NDIRECT < NINDIRECT
    · simp only [bmap, if_neg h1, if_pos h2]
      split <;> simp
    · have h3 : bn - NDIRECT - NINDIRECT < NINDIRECTDOUBLE := by
        have hND : NDIRECT = 11 := rfl
        have hNI : NINDIRECT = 256 := rfl
        have hNID : NINDIRECTDOUBLE = 65536 := rfl
        omega
      simp only [bmap, if_neg h1, if_neg h2, if_pos h3]
      split
      · simp
      · split <;> simp

/-- Helper: a successful, nonzero bmap result is the mapping of bn in
the resulting state. -/
theorem bmap_val (st : FsSt) (bn v : Nat) (st2 : FsSt) (hinv : FsInv st)
    (h : bmap st bn = some (v, st2)) (hv : v ≠ 0) : blockAt st2 bn = v := by
  by_cases h1 : bn < NDIRECT
  · simp only [bmap, if_pos h1, Option.some_inj] at h
    injection h with hv2 hst
    subst hst
    subst hv2
    simp only [blockAt, if_pos h1]
    exact ensure_addr_val st bn hv
  · by_cases h2 : bn - NDIRECT < NINDIRECT
    · simp only [bmap, if_neg h1, if_pos h2] at h
      by_cases hp : (ensurePtr st (st.addrs NDIRECT)
          (fun s a => setAddr s NDIRECT a)).1 = 0
      · rw [if_pos hp, Option.some_inj] at h
        injection h with hv2 _
        exact absurd hv2.symm hv
      · rw [if_neg hp, Option.some_inj] at h
        injection h with hv2 hst
        subst hst
        subst hv2
        have haddr := ensure_disk_addrs (ensurePtr st (st.addrs NDIRECT)
          (fun s a => setAddr s NDIRECT a)).2 (ensurePtr st (st.addrs NDIRECT)
          (fun s a => setAddr s NDIRECT a)).1 (bn - NDIRECT)
        have haj := ensure_addr_val st NDIRECT hp
        simp only [blockAt, if_neg h1, if_pos h2]
        rw [haddr, haj, if_neg hp]
        exact ensure_disk_val _ _ _ hv
    · by_cases h3 : bn - NDIRECT - NINDIRECT < NINDIRECTDOUBLE
      · simp only [bmap, if_neg h1, if_neg h2, if_pos h3] at h
        set i1 := (bn - NDIRECT - NINDIRECT) / NINDIRECT with hi1d
        set i2 := (bn - NDIRECT - NINDIRECT) % NINDIRECT with hi2d
        set pA := ensurePtr st (st.addrs (NDIRECT + 1))
          (fun s a => setAddr s (NDIRECT + 1) a) with hpAd
        by_cases hp : pA.1 = 0
        · rw [if_pos hp, Option.some_inj] at h
          injection h with hv2 _
          exact absurd hv2.symm hv
        · rw [if_neg hp] at h
          set pB := ensurePtr pA.2 (pA.2.disk pA.1 i1)
            (fun s a => setDiskLog s pA.1 i1 a) with hpBd
          by_cases hq : pB.1 = 0
          · rw [if_pos hq, Option.some_inj] at h
            injection h with hv2 _
            exact absurd hv2.symm hv
          · rw [if_neg hq, Option.some_inj] at h
            set pC := ensurePtr pB.2 (pB.2.disk pB.1 i2)
              (fun s a => setDiskLog s pB.1 i2 a) with hpCd
            injection h with hv2 hst
            subst hst
            subst hv2
            have hinvA : FsInv pA.2 :=
              ((fsStep_ensure_addr st (NDIRECT + 1)).2.2.2 hinv).1
            have hinvB : FsInv pB.2 :=
              ((fsStep_ensure_disk pA.2 pA.1 i1).2.2.2 hinvA).1
            have haA : pA.2.addrs (NDIRECT + 1) = pA.1 :=
              ensure_addr_val st (NDIRECT + 1) hp
            have haB : pB.2.addrs = pA.2.addrs := ensure_disk_addrs pA.2 pA.1 i1
            have haC : pC.2.addrs = pB.2.addrs := ensure_disk_addrs pB.2 pB.1 i2
            have hpBval : pB.2.disk pA.1 i1 = pB.1 :=
              ensure_disk_val pA.2 pA.1 i1 hq
            have hi1lt : i1 < NINDIRECT := outerIdx_lt _ h3
            have hBA : pB.1 ≠ pA.1 := by
              rcases ensure_disk_result pA.2 pA.1 i1 hq with hcase | hcase
              · have hsep := hinvA.2
                have := hsep (by rw [haA]; exact hp) i1 hi1lt
                rw [haA] at this
                rw [hcase]
                exact this
              · have hfr := (hinvA.1.2 pB.1 hcase).2
                intro he
                exact hfr (Or.inr (Or.inl (by rw [he, haA])))
            have hpres : pC.2.disk pA.1 i1 = pB.2.disk pA.1 i1 := by
              refine ensure_disk_preserves pB.2 pB.1 i2 pA.1 i1 ?_ ?_
              · intro hcc
                exact hBA hcc.1.symm
              · intro x hx
                have hfr := (hinvB.1.2 x hx).2
                intro he
                exact hfr (Or.inr (Or.inl (by rw [he, haB, haA])))
            have hval : pC.2.disk pB.1 i2 = pC.1 :=
              ensure_disk_val pB.2 pB.1 i2 hv
            simp only [blockAt, if_neg h1, if_neg h2, if_pos h3, ← hi1d,
              ← hi2d]
            rw [haC, haB, haA, if_neg hp, hpres, hpBval, if_neg hq]
            exact hval
      · simp [bmap, if_neg h1, if_neg h2, if_neg h3] at h

/-- Helper: if the readi loop observes a copy fault, it returns -1
(tot is set to -1 and the loop breaks, src/kernel/fs.c:632). -/
theorem readiGo_fault (faults : Nat → Bool) :
    ∀ (fuel : Nat) (st : FsSt) (tot off n k : Nat) (r : IoResult),
      readiGo faults fuel st tot off n k = some r →
      r.hitFault = true → r.ret = -1 := by
  intro fuel
  induction fuel with
  | zero =>
    intro st tot off n k r h hf
    cases h
  | succ f ih =>
    intro st tot off n k r h hf
    simp only [readiGo] at h
    split at h
    · cases h
      simp at hf
    · cases hb : bmap st (off / BSIZE) with
      | none =>
        rw [hb] at h
        cases h
      | some p =>
        rw [hb] at h
        obtain ⟨addr, st1⟩ := p
        simp only at h
        split at h
        · cases h
          simp at hf
        · split at h
          · cases h
            rfl
          · exact ih st1 _ _ _ _ r h hf

/-- Helper: the writei loop only grows tot up to n and only appends to
the log. -/
theorem writeiGo_facts (faults : Nat → Bool) :
    ∀ (fuel : Nat) (st : FsSt) (tot off n k t : Nat) (st2 : FsSt) (fl : Bool),
      writeiGo faults fuel st tot off n k = some (t, st2, fl) →
      tot ≤ n →
      tot ≤ t ∧ t ≤ n ∧ (∃ l, st2.logged = st.logged ++ l) := by
  intro fuel
  induction fuel with
  | zero =>
    intro st tot off n k t st2 fl h htn
    cases h
  | succ f ih =>
    intro st tot off n k t st2 fl h htn
    simp only [writeiGo] at h
    split at h
    · cases h
      exact ⟨le_refl _, htn, ⟨[], by simp⟩⟩
    · cases hb : bmap st (off / BSIZE) with
      | none =>
        rw [hb] at h
        cases h
      | some p =>
        rw [hb] at h
        obtain ⟨addr, st1⟩ := p
        simp only at h
        have hstep := bmap_step st (off / BSIZE) addr st1 hb
        obtain ⟨l1, hl1⟩ := hstep.2.2.1
        split at h
        · cases h
          exact ⟨le_refl _, htn, ⟨l1, hl1⟩⟩
        · split at h
          · cases h
            exact ⟨le_refl _, htn, ⟨l1, hl1⟩⟩
          · rename_i hnle haddr hfault
            have hm1 : min (n - tot) (BSIZE - off % BSIZE) ≤ n - tot :=
              min_le_left _ _
            have htot2 : tot + min (n - tot) (BSIZE - off % BSIZE) ≤ n := by
              omega
            obtain ⟨h1, h2, l2, hl2⟩ := ih _ _ _ _ _ _ _ _ h htot2
            refine ⟨by omega, h2, ⟨l1 ++ [addr] ++ l2, ?_⟩⟩
            simp only at hl2
            rw [hl2]
            simp [hl1]

/-- Helper: the writei loop preserves the invariant and leaves no hole
below the original size nor below the final write position. -/
theorem writeiGo_noHoles (faults : Nat → Bool) :
    ∀ (fuel : Nat) (st : FsSt) (tot off n k t : Nat) (st2 : FsSt) (fl : Bool),
      writeiGo faults fuel st tot off n k = some (t, st2, fl) →
      FsInv st →
      (∀ j, j * BSIZE < st.size → blockAt st j ≠ 0) →
      (∀ j, j * BSIZE < off → blockAt st j ≠ 0) →
      st2.size = st.size ∧ FsInv st2 ∧ tot ≤ t ∧
      (∀ j, j * BSIZE < st2.size → blockAt st2 j ≠ 0) ∧
      (∀ j, j * BSIZE + tot < off + t → blockAt st2 j ≠ 0) := by
  intro fuel
  induction fuel with
  | zero =>
    intro st tot off n k t st2 fl h _ _ _
    cases h
  | succ f ih =>
    intro st tot off n k t st2 fl h hinv hholes hpre
    simp only [writeiGo] at h
    split at h
    · cases h
      refine ⟨rfl, hinv, le_refl _, hholes, ?_⟩
      intro j hj
      exact hpre j (by omega)
    · cases hb : bmap st (off / BSIZE) with
      | none =>
        rw [hb] at h
        cases h
      | some p =>
        rw [hb] at h
        obtain ⟨addr, st1⟩ := p
        simp only at h
        have hstep := bmap_step st (off / BSIZE) addr st1 hb
        obtain ⟨hsz1, _, _, hcond⟩ := hstep
        obtain ⟨hinv1, hmono⟩ := hcond hinv
        have hholes1 : ∀ j, j * BSIZE < st1.size → blockAt st1 j ≠ 0 := by
          intro j hj
          have := hholes j (by rw [← hsz1]; exact hj)
          rw [hmono j this]
          exact this
        have hpre1 : ∀ j, j * BSIZE < off → blockAt st1 j ≠ 0 := by
          intro j hj
          have := hpre j hj
          rw [hmono j this]
          exact this
        split at h
        · cases h
          refine ⟨hsz1, hinv1, le_refl _, hholes1, ?_⟩
          intro j hj
          exact hpre1 j (by omega)
        · split at h
          · cases h
            refine ⟨hsz1, hinv1, le_refl _, hholes1, ?_⟩
            intro j hj
            exact hpre1 j (by omega)
          · rename_i hnle haddr hfault
            have hvaddr : blockAt st1 (off / BSIZE) = addr :=
              bmap_val st (off / BSIZE) addr st1 hinv hb haddr
            have hB : BSIZE = 1024 := rfl
            have hmod : off % BSIZE < BSIZE := Nat.mod_lt _ (by rw [hB]; omega)
            have hdm := Nat.div_add_mod off BSIZE
            have hpre2 : ∀ j, j * BSIZE <
                off + min (n - tot) (BSIZE - off % BSIZE) →
                blockAt ({ st1 with logged := st1.logged ++ [addr] }) j ≠ 0 := by
              intro j hj
              by_cases hjo : j * BSIZE < off
              · exact hpre1 j hjo
              · have hjeq : j = off / BSIZE := by
                  have hmle : min (n - tot) (BSIZE - off % BSIZE) ≤
                      BSIZE - off % BSIZE := min_le_right _ _
                  rw [hB] at *
                  omega
                rw [hjeq]
                show blockAt st1 (off / BSIZE) ≠ 0
                rw [hvaddr]
                exact haddr
            have hih := ih ({ st1 with logged := st1.logged ++ [addr] })
              (tot + min (n - tot) (BSIZE - off % BSIZE))
              (off + min (n - tot) (BSIZE - off % BSIZE)) n (k + 1) t st2 fl
              h hinv1 hholes1 hpre2
            obtain ⟨hsz2, hinv2, hle2, hholes2, hcover2⟩ := hih
            refine ⟨hsz2.trans hsz1, hinv2, by omega, hholes2, ?_⟩
            intro j hj
            exact hcover2 j (by omega)

/-- Witness for bget_miss_lru at the concrete cache bcacheWitness,
looking up (dev, blockno) = (1, 1): the miss and length hypotheses and
the inner find_lru = some 0 premise are discharged by evaluation. -/
theorem bget_miss_lru_witness :
    (bucketScan bcacheWitness 1 1 (1 % NBUCKET) = none ∧
      bcacheWitness.buckets.length = NBUCKET ∧
      find_lru bcacheWitness = some 0) ∧
    (0 ∈ resident bcacheWitness ∧ (bcacheWitness.pool 0).refcnt = 0 ∧
      (∀ b ∈ resident bcacheWitness, (bcacheWitness.pool b).refcnt = 0 →
        (bcacheWitness.pool 0).lastuse ≤ (bcacheWitness.pool b).lastuse) ∧
      ∃ c2, bget bcacheWitness 1 1 = some (0, c2) ∧
        c2.pool 0 = { dev := 1, blockno := 1, valid := false, refcnt := 1,
                      lastuse := (bcacheWitness.pool 0).lastuse } ∧
        0 ∈ c2.buckets.getD (1 % NBUCKET) []) :=
  ⟨⟨by decide, by decide, by decide⟩,
    (bget_miss_lru bcacheWitness 1 1 (by decide) (by decide)).2 0 (by decide)⟩

/-- C2 counterexample: writei does NOT return -1 on a copy fault.  At
the concrete one-byte write whose very first copy attempt faults,
writei returns 0 (the byte count before the fault), not -1. -/
theorem writei_fault_not_minus_one_cex :
    writei fsWitnessSt faultAlways 0 1 = some writeiFaultRes ∧
    writeiFaultRes.hitFault = true ∧ writeiFaultRes.ret = 0 ∧
    ¬ writeiFaultRes.ret = -1 :=
  ⟨rfl, rfl, rfl, by decide⟩

/-- C2 (amended): a copy fault during readi makes it return -1; a copy
fault during writei does not produce -1: the call stops at the fault
and returns the number of bytes fully copied before it (between 0 and
n), and the log retains every block registered up to the fault (the
final log is an extension of the initial one). -/
theorem copy_fault_results :
    (∀ (st : FsSt) (faults : Nat → Bool) (off n : Nat) (r : IoResult),
      readi st faults off n = some r → r.hitFault = true → r.ret = -1) ∧
    (∀ (st : FsSt) (faults : Nat → Bool) (off n : Nat) (r : IoResult),
      writei st faults off n = some r → r.hitFault = true →
      0 ≤ r.ret ∧ r.ret ≤ (n : Int) ∧
      ∃ l, r.st.logged = st.logged ++ l) := by
  constructor
  · intro st faults off n r h hf
    simp only [readi] at h
    split at h
    · cases h
      simp at hf
    · exact readiGo_fault faults _ _ _ _ _ _ r h hf
  · intro st faults off n r h hf
    simp only [writei] at h
    split at h
    · cases h
      simp at hf
    · split at h
      · cases h
        simp at hf
      · cases hw : writeiGo faults (n + 1) st 0 off n 0 with
        | none =>
          rw [hw] at h
          cases h
        | some p =>
          rw [hw] at h
          obtain ⟨t, st2, fl⟩ := p
          simp only [Option.map_some'] at h
          obtain ⟨h1, h2, l, hl⟩ :=
            writeiGo_facts faults _ _ _ _ _ _ _ _ _ hw (Nat.zero_le n)
          cases h
          refine ⟨Int.natCast_nonneg t, ?_, ⟨l ++ [st.inodeblock], ?_⟩⟩
          · show (t : Int) ≤ (n : Int)
            exact_mod_cast h2
          · show st2.logged ++ [st.inodeblock] = st.logged ++ (l ++ [st.inodeblock])
            rw [hl, List.append_assoc]

/-- Witness for copy_fault_results at concrete faulting readi and
writei calls. -/
theorem copy_fault_results_witness :
    (readi fsReadWitness faultAlways 0 5 = some readiFaultRes ∧
      readiFaultRes.hitFault = true ∧ readiFaultRes.ret = -1) ∧
    (writei fsWitnessSt faultAlways 0 1 = some writeiFaultRes ∧
      writeiFaultRes.hitFault = true ∧
      (0 ≤ writeiFaultRes.ret ∧ writeiFaultRes.ret ≤ ((1 : Nat) : Int) ∧
        ∃ l, writeiFaultRes.st.logged = fsWitnessSt.logged ++ l)) :=
  ⟨⟨rfl, rfl, copy_fault_results.1 fsReadWitness faultAlways 0 5
      readiFaultRes rfl rfl⟩,
   ⟨rfl, rfl, copy_fault_results.2 fsWitnessSt faultAlways 0 1
      writeiFaultRes rfl rfl⟩⟩

/-- C9: writei with off > size or a 32-bit overflow of off + n returns
-1 with a completely unchanged state (so a write can never open a gap
between the end of file and the write position), and writei preserves
the no-holes property: every logical block below ceil(size/BSIZE) of a
file built through writei stays mapped (given a sound free list). -/
theorem writei_gapfree :
    (∀ (st : FsSt) (faults : Nat → Bool) (off n : Nat),
      st.size < off ∨ (off + n) % 2 ^ 32 < off →
      writei st faults off n = some ⟨-1, st, false⟩) ∧
    (∀ (st : FsSt) (faults : Nat → Bool) (off n : Nat) (r : IoResult),
      FsInv st → NoHoles st → writei st faults off n = some r →
      NoHoles r.st) := by
  constructor
  · intro st faults off n hguard
    simp only [writei]
    rw [if_pos hguard]
  · intro st faults off n r hinv hholes h
    simp only [writei] at h
    split at h
    · cases h
      exact hholes
    · split at h
      · cases h
        exact hholes
      · rename_i hge hle
        push_neg at hge
        cases hw : writeiGo faults (n + 1) st 0 off n 0 with
        | none =>
          rw [hw] at h
          cases h
        | some p =>
          rw [hw] at h
          obtain ⟨t, st2, fl⟩ := p
          simp only [Option.map_some'] at h
          obtain ⟨hsz, hinv2, _, hholes2, hcover⟩ :=
            writeiGo_noHoles faults _ _ _ _ _ _ _ _ _ hw hinv hholes
              (fun j hj => hholes j (lt_of_lt_of_le hj hge.1))
          cases h
          intro j hj
          show blockAt st2 j ≠ 0
          rcases lt_max_iff.mp hj with hc | hc
          · exact hholes2 j hc
          · exact hcover j (by omega)

/-- Witness for writei_gapfree: the refusal at off = 4000 past a
2048-byte file, and no-holes preservation across a fault-free
2048-byte write growing an empty file. -/
theorem writei_gapfree_witness :
    ((fsReadWitness.size < 4000 ∨ (4000 + 0) % 2 ^ 32 < 4000) ∧
      writei fsReadWitness faultNever 4000 0 =
        some ⟨-1, fsReadWitness, false⟩) ∧
    (FsInv fsWitnessSt ∧ NoHoles fsWitnessSt ∧
      writei fsWitnessSt faultNever 0 2048 = some writeiOkRes ∧
      NoHoles writeiOkRes.st) := by
  have hInv : FsInv fsWitnessSt := by
    refine ⟨⟨by decide, ?_⟩, ?_⟩
    · intro a ha
      refine ⟨?_, ?_⟩
      · intro h0
        rw [h0] at ha
        revert ha
        decide
      · intro hm
        rcases hm with hc | hc | ⟨h12, _⟩
        · rw [show fsWitnessSt.addrs NDIRECT = 0 from rfl] at hc
          rw [hc] at ha
          revert ha
          decide
        · rw [show fsWitnessSt.addrs (NDIRECT + 1) = 0 from rfl] at hc
          rw [hc] at ha
          revert ha
          decide
        · exact h12 rfl
    · intro h12
      exact absurd rfl h12
  have hHoles : NoHoles fsWitnessSt := by
    intro k hk
    rw [show fsWitnessSt.size = 0 from rfl] at hk
    exact absurd hk (by omega)
  refine ⟨⟨?_, ?_⟩, hInv, hHoles, rfl, ?_⟩
  · left
    decide
  · exact writei_gapfree.1 fsReadWitness faultNever 4000 0 (by left; decide)
  · exact writei_gapfree.2 fsWitnessSt faultNever 0 2048 writeiOkRes hInv
      hHoles rfl

/-- Witness for begin_op_admission_and_reserve: instantiate the three
conjuncts at the initial state and the counterexample trace. -/
theorem begin_op_admission_and_reserve_witness :
    ((logStep (initLog 31) LogCmd.beginOp).isSome = true ↔
      (¬ (initLog 31).committing ∧
        (initLog 31).blocks.length + ((initLog 31).ops.length + 1) *
          MAXOPBLOCKS ≤ LOGSIZE)) ∧
    ((execCmds (initLog 31) c4trace).elim 0
        (fun s => s.blocks.length + s.ops.sum) ≤ LOGSIZE) := by
  refine ⟨begin_op_admission_and_reserve.1 (initLog 31), ?_⟩
  cases hs : execCmds (initLog 31) c4trace with
  | none => simp [Option.elim, LOGSIZE]
  | some s =>
    have := begin_op_admission_and_reserve.2.2 31 c4trace s hs
    simpa [Option.elim] using this

/-- The entry handed to insertFree is present in the result. -/
theorem insertFree_mem (l : List Dirent) (e : Dirent) :
    e ∈ insertFree l e := by
  induction l with
  | nil => simp [insertFree]
  | cons d rest ih =>
    simp only [insertFree]
    by_cases h : d.inum = 0
    · simp [h]
    · simp [h, ih]

/-- C7: sys_link refuses directories; whenever it returns -1, the
source inode's nlink is unchanged (the increment taken before parent
resolution, device check or dirlink is rolled back); on success the
nlink is exactly one greater and the new entry — the DIRSIZ-truncated
name paired with the source inum — is present in the parent. -/
theorem sys_link_rollback :
    (∀ w : LinkW, w.oldOk = true → w.ity = Ty.dir →
      (sys_link w).1 = -1 ∧ (sys_link w).2 = w) ∧
    (∀ w : LinkW, (sys_link w).1 = -1 →
      (sys_link w).2.nlink = w.nlink) ∧
    (∀ w : LinkW, (sys_link w).1 = 0 →
      (sys_link w).2.nlink = w.nlink + 1 ∧
      Dirent.mk w.inum (w.name.take DIRSIZ) ∈ (sys_link w).2.pentries) := by
  refine ⟨?_, ?_, ?_⟩
  · intro w hold hdir
    simp [sys_link, hold, hdir]
  · intro w hret
    simp only [sys_link] at hret ⊢
    by_cases hold : w.oldOk
    · have hnold : ¬ ¬ w.oldOk = true := fun hc => hc hold
      simp only [if_neg hnold] at hret ⊢
      by_cases hdir : w.ity = Ty.dir
      · simp [hdir]
      · simp only [if_neg hdir] at hret ⊢
        by_cases hpar : w.parentOk
        · have hnpar : ¬ ¬ w.parentOk = true := fun hc => hc hpar
          simp only [if_neg hnpar] at hret ⊢
          by_cases hdev : w.pdev ≠ w.idev
          · simp [if_pos hdev]
          · simp only [if_neg hdev] at hret ⊢
            cases hdl : dirlink w.pentries w.name w.inum w.diskFull with
            | none => simp [hdl]
            | some es => simp [hdl] at hret
        · simp [hpar]
    · simp [hold]
  · intro w hret
    simp only [sys_link] at hret ⊢
    by_cases hold : w.oldOk
    · have hnold : ¬ ¬ w.oldOk = true := fun hc => hc hold
      simp only [if_neg hnold] at hret ⊢
      by_cases hdir : w.ity = Ty.dir
      · simp [hdir] at hret
      · simp only [if_neg hdir] at hret ⊢
        by_cases hpar : w.parentOk
        · have hnpar : ¬ ¬ w.parentOk = true := fun hc => hc hpar
          simp only [if_neg hnpar] at hret ⊢
          by_cases hdev : w.pdev ≠ w.idev
          · simp [if_pos hdev] at hret
          · simp only [if_neg hdev] at hret ⊢
            cases hdl : dirlink w.pentries w.name w.inum w.diskFull with
            | none => simp [hdl] at hret
            | some es =>
              simp only [hdl] at hret ⊢
              refine ⟨?_, ?_⟩
              · exact trivial
              simp only [dirlink] at hdl
              by_cases hdup : (dirlookup w.pentries w.name).isSome
              · simp [hdup] at hdl
              · simp only [if_neg hdup] at hdl
                by_cases hfull : w.diskFull
                · simp [hfull] at hdl
                · simp only [if_neg hfull, Option.some.injEq] at hdl
                  subst hdl
                  exact insertFree_mem _ _
        · simp [hpar] at hret
    · simp [hold] at hret

/-- Witness for sys_link_rollback: the directory refusal, a rolled
back cross-device failure, and a successful link on linkW. -/
theorem sys_link_rollback_witness :
    ((sys_link linkWDir).1 = -1 ∧ (sys_link linkWDir).2 = linkWDir) ∧
    (sys_link linkWBad).2.nlink = linkWBad.nlink ∧
    ((sys_link linkW).2.nlink = linkW.nlink + 1 ∧
      Dirent.mk linkW.inum (linkW.name.take DIRSIZ) ∈
        (sys_link linkW).2.pentries) := by
  refine ⟨sys_link_rollback.1 linkWDir rfl rfl, ?_, ?_⟩
  · exact sys_link_rollback.2.1 linkWBad (by decide)
  · exact sys_link_rollback.2.2 linkW (by decide)

/-- A nonempty symlink chain starts at a symlink inode. -/
theorem chain_head_symlink (env : SymEnv) (ip k j : Nat)
    (h : chain env ip (k + 1) = some j) : env.typeOf ip = Ty.symlink := by
  by_contra hns
  simp [chain, hns] at h

/-- Following k chain steps peels k units of remaining depth off the
resolve loop. -/
theorem resolveSymGo_chain (env : SymEnv) :
    ∀ (k ip j r : Nat), chain env ip k = some j → k ≤ r →
      resolveSymGo env ip r = resolveSymGo env j (r - k) := by
  intro k
  induction k with
  | zero =>
    intro ip j r hc _
    simp only [chain, Option.some.injEq] at hc
    subst hc
    simp
  | succ k ih =>
    intro ip j r hc hk
    have hsym : env.typeOf ip = Ty.symlink := chain_head_symlink env ip k j hc
    simp only [chain, if_pos hsym] at hc
    cases hstep : symStep env ip with
    | none =>
      rw [hstep] at hc
      exact absurd hc (by simp)
    | some nxt =>
      rw [hstep] at hc
      obtain ⟨r1, rfl⟩ : ∃ r1, r = r1 + 1 := ⟨r - 1, by omega⟩
      simp only [resolveSymGo, if_pos hsym, hstep]
      rw [ih nxt j r1 hc (by omega)]
      congr 1
      omega

/-- C8: symlink resolution in sys_open follows targets repeatedly up
to depth MAX_SYMLINK_DEPTH = 10: a chain of at most 10 links ending
at a non-symlink opens that inode; when 10 follows still land on a
symlink the open fails (-1); a failing target read or namei lookup
anywhere along the chain fails too; in particular opening the head of
the S5 eleven-link chain without O_NOFOLLOW returns failure. -/
theorem symlink_depth_limit :
    (∀ (env : SymEnv) (ip k j : Nat), k ≤ MAX_SYMLINK_DEPTH →
      chain env ip k = some j → env.typeOf j ≠ Ty.symlink →
      sysOpenSymlink env false ip = some j) ∧
    (∀ (env : SymEnv) (ip j : Nat),
      chain env ip MAX_SYMLINK_DEPTH = some j →
      env.typeOf j = Ty.symlink → sysOpenSymlink env false ip = none) ∧
    (∀ (env : SymEnv) (ip k j : Nat), k ≤ MAX_SYMLINK_DEPTH →
      chain env ip k = some j → env.typeOf j = Ty.symlink →
      symStep env j = none → sysOpenSymlink env false ip = none) ∧
    sysOpenSymlink env11 false 1 = none := by
  refine ⟨?_, ?_, ?_, by decide⟩
  · intro env ip k j hk hc hj
    cases k with
    | zero =>
      simp only [chain, Option.some.injEq] at hc
      subst hc
      simp [sysOpenSymlink, hj]
    | succ k =>
      have hsym : env.typeOf ip = Ty.symlink :=
        chain_head_symlink env ip k j hc
      have hres := resolveSymGo_chain env (k + 1) ip j MAX_SYMLINK_DEPTH hc hk
      simp only [sysOpenSymlink]
      rw [if_pos ⟨hsym, trivial⟩]
      simp only [resolve_symlink]
      rw [hres]
      cases MAX_SYMLINK_DEPTH - (k + 1) with
      | zero => simp [resolveSymGo, hj]
      | succ m => simp [resolveSymGo, hj]
  · intro env ip j hc hj
    have hsym : env.typeOf ip = Ty.symlink :=
      chain_head_symlink env ip 9 j hc
    have hres := resolveSymGo_chain env MAX_SYMLINK_DEPTH ip j
      MAX_SYMLINK_DEPTH hc le_rfl
    simp only [sysOpenSymlink]
    rw [if_pos ⟨hsym, trivial⟩]
    simp only [resolve_symlink]
    rw [hres, Nat.sub_self]
    simp [resolveSymGo, hj]
  · intro env ip k j hk hc hj hstep
    have hsym : env.typeOf ip = Ty.symlink := by
      cases k with
      | zero =>
        simp only [chain, Option.some.injEq] at hc
        subst hc
        exact hj
      | succ k => exact chain_head_symlink env ip k j hc
    have hres := resolveSymGo_chain env k ip j MAX_SYMLINK_DEPTH hc hk
    simp only [sysOpenSymlink]
    rw [if_pos ⟨hsym, trivial⟩]
    simp only [resolve_symlink]
    rw [hres]
    cases MAX_SYMLINK_DEPTH - k with
    | zero => simp [resolveSymGo, hj]
    | succ m => simp [resolveSymGo, hj, hstep]

/-- Witness for symlink_depth_limit: on the concrete chains — two
links ending at the regular file 12, the full ten-deep walk of env11
landing on symlink 11, and the broken link 5 of env12 — the three
conditional conjuncts apply. -/
theorem symlink_depth_limit_witness :
    (2 ≤ MAX_SYMLINK_DEPTH ∧ chain env11 10 2 = some 12 ∧
      sysOpenSymlink env11 false 10 = some 12) ∧
    (chain env11 1 MAX_SYMLINK_DEPTH = some 11 ∧
      sysOpenSymlink env11 false 1 = none) ∧
    (4 ≤ MAX_SYMLINK_DEPTH ∧ chain env12 1 4 = some 5 ∧
      symStep env12 5 = none ∧ sysOpenSymlink env12 false 1 = none) := by
  refine ⟨⟨by decide, by decide, ?_⟩, ⟨by decide, ?_⟩,
    ⟨by decide, by decide, by decide, ?_⟩⟩
  · exact symlink_depth_limit.1 env11 10 2 12 (by decide) (by decide)
      (by decide)
  · exact symlink_depth_limit.2.1 env11 1 11 (by decide) (by decide)
  · exact symlink_depth_limit.2.2.1 env12 1 4 5 (by decide) (by decide)
      (by decide) (by decide)

/-- cstrEq inspects at most n bytes of each side. -/
theorem cstrEq_take :
    ∀ (n : Nat) (a b : List Nat),
      cstrEq a b n = cstrEq (a.take n) (b.take n) n := by
  intro n
  induction n with
  | zero => intro a b; cases a <;> cases b <;> rfl
  | succ n ih =>
    intro a b
    cases a with
    | nil => cases b <;> rfl
    | cons x xs =>
      cases b with
      | nil => rfl
      | cons y ys =>
        simp only [List.take_succ_cons, cstrEq, ih xs ys]

/-- namecmp only sees the first DIRSIZ bytes of each name. -/
theorem namecmp_take (a b : List Nat) :
    namecmp a b = namecmp (a.take DIRSIZ) (b.take DIRSIZ) :=
  cstrEq_take DIRSIZ a b

/-- Names agreeing on their first DIRSIZ bytes are namecmp-equal
against every third name. -/
theorem namecmp_congr (a b t : List Nat)
    (h : a.take DIRSIZ = b.take DIRSIZ) : namecmp a t = namecmp b t := by
  rw [namecmp_take a t, h, ← namecmp_take b t]

/-- The dirlookup scan cannot distinguish names agreeing on their
first DIRSIZ bytes. -/
theorem dirlookupGo_congr (n1 n2 : List Nat)
    (h : n1.take DIRSIZ = n2.take DIRSIZ) :
    ∀ (l : List Dirent) (i : Nat),
      dirlookupGo n1 l i = dirlookupGo n2 l i := by
  intro l
  induction l with
  | nil => intro i; rfl
  | cons e rest ih =>
    intro i
    simp only [dirlookupGo, namecmp_congr n1 n2 e.name h, ih]

/-- dirlookup version of dirlookupGo_congr. -/
theorem dirlookup_congr (entries : List Dirent) (n1 n2 : List Nat)
    (h : n1.take DIRSIZ = n2.take DIRSIZ) :
    dirlookup entries n1 = dirlookup entries n2 :=
  dirlookupGo_congr n1 n2 h entries 0

/-- The name written by skipelem is always the DIRSIZ-byte
truncation: the two branches of the source's length test agree. -/
theorem trunc_take (s : List Nat) :
    (if DIRSIZ ≤ s.length then s.take DIRSIZ else s) = s.take DIRSIZ := by
  split
  · rfl
  · rename_i h
    rw [List.take_of_length_le (by omega)]

/-- skipelem on a successful parse: the name is the truncated first
component and never exceeds DIRSIZ bytes. -/
theorem skipelem_shape (path rest nm : List Nat)
    (h : skipelem path = some (rest, nm)) :
    nm = ((path.dropWhile (fun c => c == SLASH)).takeWhile
      (fun c => c != SLASH)).take DIRSIZ ∧ nm.length ≤ DIRSIZ := by
  simp only [skipelem] at h
  by_cases hemp : (path.dropWhile (fun c => c == SLASH)).isEmpty = true
  · rw [if_pos hemp] at h
    exact absurd h (by simp)
  · rw [if_neg hemp] at h
    simp only [Option.some.injEq, Prod.mk.injEq] at h
    obtain ⟨hrest, hnm⟩ := h
    rw [← hnm, trunc_take]
    refine ⟨rfl, ?_⟩
    exact List.length_take_le _ _

/-- skipelem on a nonempty slash-free component: the whole path is
one element, truncated to DIRSIZ bytes, with nothing left over. -/
theorem skipelem_single (c : List Nat) (hne : c ≠ [])
    (hns : ∀ x ∈ c, x ≠ SLASH) :
    skipelem c = some ([], c.take DIRSIZ) := by
  have hd : c.dropWhile (fun x => x == SLASH) = c := by
    cases c with
    | nil => rfl
    | cons a as =>
      have ha : (a == SLASH) = false := by
        simp [hns a (List.mem_cons_self a as)]
      simp [List.dropWhile_cons, ha]
  have ht : c.takeWhile (fun x => x != SLASH) = c :=
    List.takeWhile_eq_self_iff.mpr (by
      intro x hx
      simp [hns x hx])
  have hdn : c.dropWhile (fun x => x != SLASH) = [] :=
    List.dropWhile_eq_nil_iff.mpr (by
      intro x hx
      simp [hns x hx])
  have hemp : c.isEmpty = false := by
    cases c with
    | nil => exact absurd rfl hne
    | cons a as => rfl
  simp only [skipelem, hd, hemp, ht, hdn, Bool.false_eq_true, if_false,
    List.dropWhile_nil, trunc_take]

/-- namex cannot distinguish single-component paths agreeing on their
first DIRSIZ bytes. -/
theorem namex_congr (fs : DirFs) (fuel ip : Nat) (c1 c2 : List Nat)
    (hne1 : c1 ≠ []) (hne2 : c2 ≠ [])
    (hns1 : ∀ x ∈ c1, x ≠ SLASH) (hns2 : ∀ x ∈ c2, x ≠ SLASH)
    (htake : c1.take DIRSIZ = c2.take DIRSIZ) :
    namex fs fuel ip c1 = namex fs fuel ip c2 := by
  cases fuel with
  | zero => rfl
  | succ fuel =>
    have hdl : dirlookup (fs.dirs ip) (c1.take DIRSIZ) =
        dirlookup (fs.dirs ip) (c2.take DIRSIZ) :=
      dirlookup_congr _ _ _ (by simp [List.take_take, htake])
    simp only [namex, skipelem_single c1 hne1 hns1,
      skipelem_single c2 hne2 hns2, hdl]

/-- C10: path components are truncated to DIRSIZ = 14 bytes: skipelem
hands namex at most the first 14 bytes of each component (the
source's copy drops the terminator on full-width components); namecmp
compares at most 14 bytes; consequently dirlookup, and namex path
resolution, cannot distinguish components that agree on their first
14 bytes. -/
theorem component_truncation :
    (∀ path rest nm : List Nat, skipelem path = some (rest, nm) →
      nm = ((path.dropWhile (fun c => c == SLASH)).takeWhile
        (fun c => c != SLASH)).take DIRSIZ ∧ nm.length ≤ DIRSIZ) ∧
    (∀ a b : List Nat,
      namecmp a b = namecmp (a.take DIRSIZ) (b.take DIRSIZ)) ∧
    (∀ (entries : List Dirent) (n1 n2 : List Nat),
      n1.take DIRSIZ = n2.take DIRSIZ →
      dirlookup entries n1 = dirlookup entries n2) ∧
    (∀ (fs : DirFs) (fuel ip : Nat) (c1 c2 : List Nat),
      c1 ≠ [] → c2 ≠ [] →
      (∀ x ∈ c1, x ≠ SLASH) → (∀ x ∈ c2, x ≠ SLASH) →
      c1.take DIRSIZ = c2.take DIRSIZ →
      namex fs fuel ip c1 = namex fs fuel ip c2) :=
  ⟨skipelem_shape, namecmp_take, dirlookup_congr,
    fun fs fuel ip c1 c2 => namex_congr fs fuel ip c1 c2⟩

/-- Witness for component_truncation: a 16-byte component is cut to
its first 14 bytes by skipelem, and a directory lookup and a namex
walk cannot tell it apart from another name with the same first 14
bytes. -/
theorem component_truncation_witness :
    (skipelem (List.replicate 16 97) = some ([], List.replicate 14 97) ∧
      (List.replicate 14 97 : List Nat) =
        (((List.replicate 16 97 : List Nat).dropWhile
          (fun c => c == SLASH)).takeWhile
            (fun c => c != SLASH)).take DIRSIZ ∧
      (List.replicate 14 97 : List Nat).length ≤ DIRSIZ) ∧
    dirlookup [Dirent.mk 0 [], Dirent.mk 3 (List.replicate 14 97)]
        (List.replicate 16 97) =
      dirlookup [Dirent.mk 0 [], Dirent.mk 3 (List.replicate 14 97)]
        (List.replicate 14 97 ++ [98, 99]) ∧
    namex dirFsW 2 1 (List.replicate 16 97) =
      namex dirFsW 2 1 (List.replicate 14 97 ++ [98, 99]) := by
  refine ⟨?_, ?_, ?_⟩
  · have h : skipelem (List.replicate 16 97) =
        some ([], List.replicate 14 97) := by decide
    exact ⟨h, component_truncation.1 _ _ _ h⟩
  · exact component_truncation.2.2.1 _ _ _ (by decide)
  · exact component_truncation.2.2.2 dirFsW 2 1 _ _ (by decide) (by decide)
      (by decide) (by decide) (by decide)

end MyOs
